import Mathlib

/-!
Verification development for the core GPU kernel algorithms of a sparse
linear-algebra library: the elimination-forest builder and symbolic Cholesky
factorization, the in-register Gauss-Jordan block inverter with column
pivoting, the adaptive block-Jacobi precision-reduction feasibility check,
the warp-wide reduction used to commit storage precisions, and the
sample-select order-statistics pipeline.

The kernels are embedded shallowly: device arrays become `List`/function
values, in-place updates become explicit state passing, cooperative-group
code is sequentialized (one subwarp lane processed after the other, which
preserves the per-row and per-block data flow the theorems are about), and
machine real numbers become exact rationals.
-/

/-! ## CSR helpers and the elimination-forest builder -/

/-- The column indices stored for row `row` of a CSR matrix given by
`rowPtrs`/`colIdxs`, in storage order. -/
def csr_row (rowPtrs colIdxs : List ℕ) (row : ℕ) : List ℕ :=
  (colIdxs.drop (rowPtrs.getD row 0)).take (rowPtrs.getD (row + 1) 0 - rowPtrs.getD row 0)

/-- Per-column loop body of `forest_from_factor`: scan the stored columns of
row `lCol` of the factor in storage order and return the first one strictly
larger than `lCol`; if none exists return the pseudo-root sentinel
`numRows`. -/
def forest_parent (numRows lCol : ℕ) : List ℕ → ℕ
  | [] => numRows
  | c :: rest => if lCol < c then c else forest_parent numRows lCol rest

/-- The `parents` array computed by the `forest_from_factor` kernel: one
`forest_parent` scan per row of the factor matrix. -/
def forest_from_factor (numRows : ℕ) (rowPtrs colIdxs : List ℕ) : List ℕ :=
  (List.range numRows).map fun lCol => forest_parent numRows lCol (csr_row rowPtrs colIdxs lCol)

/-! ## Symbolic Cholesky: counting pass and fill pass -/

/-- Fuel-bounded version of the loop `while node < next: node := parent node`:
the list of nodes visited. On an elimination forest the postorder parent of a
node is strictly larger than the node, so the loop makes at most
`next - node` steps; the callers below pass exactly that fuel. -/
def parent_chain (parent : ℕ → ℕ) (next : ℕ) : ℕ → ℕ → List ℕ
  | 0, _ => []
  | fuel + 1, node =>
    if node < next then node :: parent_chain parent next fuel (parent node) else []

/-- Fuel-bounded version of the counting loop of `symbolic_count`:
`while node < next: count := count + 1; node := parent node`. -/
def chain_count (parent : ℕ → ℕ) (next : ℕ) : ℕ → ℕ → ℕ
  | 0, _ => 0
  | fuel + 1, node =>
    if node < next then chain_count parent next fuel (parent node) + 1 else 0

/-- Row body of the `symbolic_count` kernel: for every stored
lower-triangular entry of the row, walk the parent chain from that entry
up to (excluding) the next entry, with the postorder diagonal index as the
sentinel bound after the last entry; count all visited nodes and add one for
the diagonal. -/
def symbolic_count_row (postorderCols : List ℕ) (rowBegin lowerEnd diagPostorder : ℕ)
    (parent : ℕ → ℕ) : ℕ :=
  (((List.range' rowBegin (lowerEnd - rowBegin)).map fun nz =>
    let node := postorderCols.getD nz 0
    let next := if nz < lowerEnd - 1 then postorderCols.getD (nz + 1) 0 else diagPostorder
    chain_count parent next (next - node) node).sum) + 1

/-- Row body of the `symbolic_factorize` kernel: the list of column indices
the fill pass writes for this row, in write order. The ballot/popcount
machinery of the device code only compacts these writes to consecutive
output positions starting at the row base offset, so the sequential order
used here carries the same values to the same number of slots. -/
def symbolic_factorize_row (postorderCols : List ℕ) (rowBegin lowerEnd diagPostorder : ℕ)
    (parent postorder : ℕ → ℕ) (row : ℕ) : List ℕ :=
  (((List.range' rowBegin (lowerEnd - rowBegin)).map fun nz =>
    let node := postorderCols.getD nz 0
    let next := if nz < lowerEnd - 1 then postorderCols.getD (nz + 1) 0 else diagPostorder
    (parent_chain parent next (next - node) node).map postorder).flatten) ++ [row]

/-- The `row_nnz` array produced by the `symbolic_count` kernel. -/
def symbolic_count (numRows : ℕ) (rowPtrs lowerEnds invPostorder postorderCols : List ℕ)
    (parent : ℕ → ℕ) : List ℕ :=
  (List.range numRows).map fun row =>
    symbolic_count_row postorderCols (rowPtrs.getD row 0) (lowerEnds.getD row 0)
      (invPostorder.getD row 0) parent

/-- The per-row column-index lists written by the `symbolic_factorize`
kernel. -/
def symbolic_factorize (numRows : ℕ) (rowPtrs lowerEnds invPostorder postorderCols : List ℕ)
    (parent postorder : ℕ → ℕ) : List (List ℕ) :=
  (List.range numRows).map fun row =>
    symbolic_factorize_row postorderCols (rowPtrs.getD row 0) (lowerEnds.getD row 0)
      (invPostorder.getD row 0) parent postorder row

/-! ## The in-register Gauss-Jordan block inverter -/

/-- State of the in-register Gauss-Jordan inversion across a cooperative
group of `n` lanes: lane `t` owns row `t` of the matrix together with its
pivoted flag and its register of each permutation vector, and all lanes
share the success status. The compile-time register bound max_problem_size
is instantiated with the actual problem size `n`; the loop guard
`i < problem_size` of the device code is then always true and rows past the
problem size, which the device code marks pivoted up front and never uses,
do not appear. -/
structure gj_state (n : ℕ) where
  row : Matrix (Fin n) (Fin n) ℚ
  pivoted : Fin n → Bool
  perm : Fin n → Fin n
  trans_perm : Fin n → Fin n
  status : Bool

/-- Modelled from the spec: the implementation of choose_pivot is not among
the provided sources, only its caller invert_block is. Per the spec, the
pivot lane is chosen among the not-yet-pivoted lanes as the one maximizing
the magnitude of its key-column element, with ties broken by the lowest
lane index, through a group-wide maximum-with-index reduction. -/
def choose_pivot {n : ℕ} (keys : Fin n → ℚ) (pivoted : Fin n → Bool) : Option (Fin n) :=
  (List.finRange n).foldl
    (fun best t =>
      if pivoted t then best
      else
        match best with
        | none => some t
        | some b => if |keys b| < |keys t| then some t else best)
    none

/-- One step of apply_gauss_jordan_transform with pivot row `keyRow` and
column `keyCol`: the pivot element is broadcast from the pivot lane; if it
is exactly zero the routine returns early with status false and the matrix
unchanged. Otherwise every lane computes its elimination coefficient (the
reciprocal on the pivot lane), updates all columns from the broadcast pivot
row, and finally overwrites the key column with the coefficients. -/
def apply_gauss_jordan_transform {n : ℕ} (keyRow keyCol : Fin n)
    (row : Matrix (Fin n) (Fin n) ℚ) (status : Bool) :
    Matrix (Fin n) (Fin n) ℚ × Bool :=
  let pivotElem := row keyRow keyCol
  if pivotElem = 0 then (row, false)
  else
    let keyColElem : Fin n → ℚ := fun t =>
      if t = keyRow then 1 / pivotElem else -(row t keyCol) / pivotElem
    let eliminated : Matrix (Fin n) (Fin n) ℚ := Matrix.of fun t i =>
      (if t = keyRow then 0 else row t i) + keyColElem t * row keyRow i
    (Matrix.of fun t i => if i = keyCol then keyColElem t else eliminated t i, status)

/-- Loop body of invert_block for column `i`: choose the pivot among the
not-yet-pivoted lanes, record the step index in the pivot lane's perm
register and the pivot lane in lane i's trans_perm register, mark the pivot
lane pivoted, and apply the Gauss-Jordan transform. -/
def invert_step {n : ℕ} (s : gj_state n) (i : Fin n) : gj_state n :=
  let piv := (choose_pivot (fun t => s.row t i) s.pivoted).getD i
  let perm := Function.update s.perm piv i
  let pivoted := Function.update s.pivoted piv true
  let tp := Function.update s.trans_perm i piv
  let rs := apply_gauss_jordan_transform piv i s.row s.status
  ⟨rs.1, pivoted, perm, tp, rs.2⟩

/-- The state of invert_block after its first `k` loop iterations, starting
from matrix `a`, no lane pivoted, both permutation registers holding the
lane index (as the callers initialize them) and status true. -/
def invert_upto {n : ℕ} (a : Matrix (Fin n) (Fin n) ℚ) (k : ℕ) : gj_state n :=
  ((List.finRange n).take k).foldl invert_step
    ⟨a, fun _ => false, fun t => t, fun t => t, true⟩

/-- invert_block: all `n` Gauss-Jordan steps. The returned state holds the
in-place result matrix, the permutation vectors and the status. -/
def invert_block {n : ℕ} (a : Matrix (Fin n) (Fin n) ℚ) : gj_state n :=
  invert_upto a n

/-- The pivot element examined by step `i` of invert_block on input `a`:
the key-column entry of the pivot lane chosen at that step. -/
def pivot_element {n : ℕ} (a : Matrix (Fin n) (Fin n) ℚ) (i : Fin n) : ℚ :=
  let s := invert_upto a i
  s.row ((choose_pivot (fun t => s.row t i) s.pivoted).getD i) i

/-- The permutation matrix encoded by a permutation vector: row `t` has its
one in column `p t`. -/
def perm_matrix {n : ℕ} (p : Fin n → Fin n) : Matrix (Fin n) (Fin n) ℚ :=
  Matrix.of fun t j => if p t = j then 1 else 0

/-- Invariant target matrix of the Gauss-Jordan induction: after the steps
for columns below `k`, column `j < k` of the implicitly maintained product
holds the basis vector of the pivot row of step `j`, and the remaining
columns still hold the corresponding columns of the input matrix. -/
def gj_target {n : ℕ} (a : Matrix (Fin n) (Fin n) ℚ) (tp : Fin n → Fin n) (k : ℕ) :
    Matrix (Fin n) (Fin n) ℚ :=
  Matrix.of fun t j => if (j : ℕ) < k then (if t = tp j then 1 else 0) else a t j

/-- The row-operation matrix of one Gauss-Jordan step: the identity plus the
rank-one update `u` times the transposed basis vector of the pivot row. -/
def gj_elim {n : ℕ} (u : Fin n → ℚ) (p : Fin n) : Matrix (Fin n) (Fin n) ℚ :=
  1 + Matrix.of (fun t s => if s = p then u t else 0)

/-- Inductive invariant of invert_block relating the state after `k` steps
to the input matrix, as long as the status is still true: some invertible
row-operation matrix `f` turns the partially processed target into the
current register contents, has already solved the processed columns of `a`
to pivot-row basis vectors, and acts as the identity on the basis vectors
of all unpivoted lanes. The bookkeeping parts record that exactly the
chosen pivot lanes are marked pivoted, one fresh lane per step, and that
perm inverts trans_perm on the processed steps. -/
def gj_inv {n : ℕ} (a : Matrix (Fin n) (Fin n) ℚ) (k : ℕ) (s : gj_state n) : Prop :=
  (∀ t, s.pivoted t = true ↔ ∃ j : Fin n, (j : ℕ) < k ∧ s.trans_perm j = t) ∧
  (∀ j j' : Fin n, (j : ℕ) < k → (j' : ℕ) < k → s.trans_perm j = s.trans_perm j' → j = j') ∧
  (∀ j : Fin n, (j : ℕ) < k → s.perm (s.trans_perm j) = j) ∧
  (s.status = true →
    ∃ f : Matrix (Fin n) (Fin n) ℚ, IsUnit f ∧
      s.row = f * gj_target a s.trans_perm k ∧
      (∀ j : Fin n, (j : ℕ) < k → ∀ t, (f * a) t j = if t = s.trans_perm j then 1 else 0) ∧
      (∀ t, s.pivoted t = false → ∀ r, f r t = if r = t then 1 else 0))

/-- The elimination coefficient vector of one Gauss-Jordan step: the
reciprocal of the pivot element on the pivot lane, minus the own key-column
entry over the pivot element elsewhere. -/
def gj_coeff {n : ℕ} (r : Matrix (Fin n) (Fin n) ℚ) (p i : Fin n) : Fin n → ℚ :=
  fun t => if t = p then 1 / r p i else -(r t i) / r p i

/-- The rank-one update vector whose elimination matrix realizes one
Gauss-Jordan step: the coefficient vector minus the pivot basis vector. -/
def gj_update {n : ℕ} (r : Matrix (Fin n) (Fin n) ℚ) (p i : Fin n) : Fin n → ℚ :=
  fun t => gj_coeff r p i t - if t = p then 1 else 0

/-! ## Block-Jacobi: infinity norm and the precision-reduction check -/

/-- compute_infinity_norm on a square block: every lane sums the magnitudes
of its row entries, idle lanes contribute zero, and the group reduces with
max. -/
def compute_infinity_norm {n : ℕ} (a : Matrix (Fin n) (Fin n) ℚ) : ℚ :=
  (List.finRange n).foldl (fun acc t => max acc (∑ i, |a t i|)) 0

/-- The condition-number surrogate computed by
validate_precision_reduction_feasibility: the infinity norm of the
round-tripped block times the infinity norm of the in-place result of
inverting the round-tripped block. Row and column permutations do not
change the infinity norm, so this is the condition number of the reduced
block whenever the inversion succeeds. -/
def block_cond {n : ℕ} (roundTrip : ℚ → ℚ) (row : Matrix (Fin n) (Fin n) ℚ) : ℚ :=
  compute_infinity_norm (Matrix.of fun t i => roundTrip (row t i)) *
    compute_infinity_norm (invert_block (Matrix.of fun t i => roundTrip (row t i))).row

/-- validate_precision_reduction_feasibility: save the original rows to the
work buffer (transposed, as in the device code), round-trip the block
through the reduced precision `roundTrip`, compute the condition-number
surrogate around the in-place inversion, restore the original rows from the
work buffer, and accept when the inversion succeeded, the surrogate is at
least one, and the surrogate times the unit roundoff `eps` of the working
value type is below 1/1000. Returns the acceptance flag and the final row
contents. -/
def validate_precision_reduction_feasibility {n : ℕ} (roundTrip : ℚ → ℚ) (eps : ℚ)
    (row : Matrix (Fin n) (Fin n) ℚ) : Bool × Matrix (Fin n) (Fin n) ℚ :=
  let work : Fin n → Fin n → ℚ := fun i t => row t i
  let reduced : Matrix (Fin n) (Fin n) ℚ := Matrix.of fun t i => roundTrip (row t i)
  let condBefore := compute_infinity_norm reduced
  let inv := invert_block reduced
  let blockCond := condBefore * compute_infinity_norm inv.row
  let restored : Matrix (Fin n) (Fin n) ℚ := Matrix.of fun t i => work i t
  (inv.status && decide (1 ≤ blockCond) && decide (blockCond * eps < 1 / 1000), restored)

/-! ## The warp-wide reduction committing storage precisions -/

/-- Modelled from the spec: the group reduce primitive used by
adaptive_generate is not among the provided sources, only its call with the
bitwise-and combiner is. Per the spec it is a hypercube exchange: in step
`s` every lane combines its value with the value of the lane whose index
differs exactly in bit `s`, for all bit positions below the logarithm of
the group width. -/
def shfl_xor_reduce (op : ℕ → ℕ → ℕ) (f : ℕ → ℕ) : ℕ → ℕ → ℕ
  | 0, lane => f lane
  | s + 1, lane => op (shfl_xor_reduce op f s lane) (shfl_xor_reduce op f s (lane ^^^ 2 ^ s))

/-- The storage precision committed by adaptive_generate as computed by one
lane of a warp of width two to the `logW`: the optimal-reduction selector
applied to the warp-wide bitwise-and reduction of the per-lane
precision-feasibility descriptors. -/
def adaptive_generate_committed (logW : ℕ) (opt : ℕ → ℕ) (desc : ℕ → ℕ) (lane : ℕ) : ℕ :=
  opt (shfl_xor_reduce (fun x y => x &&& y) desc logW lane)

/-! ## The sample-select pipeline -/

/-- ffs intrinsic: the one-based index of the least significant set bit,
zero for input zero. -/
def ffs : ℕ → ℕ
  | 0 => 0
  | n + 1 => if (n + 1) % 2 = 1 then 1 else ffs ((n + 1) / 2) + 1
decreasing_by exact Nat.div_lt_self (Nat.succ_pos n) (by norm_num)

/-- Flat position where build_searchtree thread `idx` stores its splitter:
its level is the tree height minus the ffs of its index, its in-level index
drops the trailing one-zeros, and the previous levels occupy the first
two-to-the-level minus one slots. -/
def searchtree_pos (h idx : ℕ) : ℕ :=
  (idx >>> ffs idx) + 2 ^ (h - ffs idx) - 1

/-- build_searchtree of height `h` with oversampling `k`: sort the samples
(the bitonic sorting network is modelled as a sort, after which thread `idx`
holds the sorted block starting at `idx * k`), store thread idx's first
sorted sample as the inner splitter at its tree position for every nonzero
thread index, and store it as leaf `idx` behind the inner nodes for every
thread. -/
def build_searchtree (h k : ℕ) (samples : List ℚ) : List ℚ :=
  let sorted := samples.mergeSort fun a b => decide (a ≤ b)
  let w := 2 ^ h
  let inner := (List.range w).foldl
    (fun arr idx =>
      if 0 < idx then arr.set (searchtree_pos h idx) (sorted.getD (idx * k) 0) else arr)
    (List.replicate (2 * w - 1) 0)
  (List.range w).foldl (fun arr idx => arr.set (idx + (w - 1)) (sorted.getD (idx * k) 0)) inner

/-- Search-tree walk of count_buckets with the remaining level count as
first loop argument: at an inner node, go to the right child exactly when
the element is not below the splitter. -/
def classify_go (tree : List ℚ) (el : ℚ) : ℕ → ℕ → ℕ
  | 0, treeIdx => treeIdx
  | level + 1, treeIdx =>
    classify_go tree el level (2 * treeIdx + 1 + if el < tree.getD treeIdx 0 then 0 else 1)

/-- The bucket count_buckets assigns to one element magnitude: walk all
levels of the search tree from the root and subtract the inner-node count
from the resulting leaf position. -/
def classify (h : ℕ) (tree : List ℚ) (el : ℚ) : ℕ :=
  classify_go tree el h 0 - (2 ^ h - 1)

/-- The oracle array written by count_buckets: the bucket of the magnitude
of every input element, in input order. -/
def count_buckets_oracles (h k : ℕ) (samples a : List ℚ) : List ℕ :=
  a.map fun v => classify h (build_searchtree h k samples) |v|

/-- The total per-bucket counts accumulated by the atomic counters of
count_buckets and summed across thread blocks by block_prefix_sum. -/
def bucket_counts (h k : ℕ) (samples a : List ℚ) (b : ℕ) : ℕ :=
  (count_buckets_oracles h k samples a).count b

/-- The bucket prefix-sum array consumed by find_bucket: the exclusive
prefix sum of the per-bucket totals, as produced by the device prefix-sum
pass over the totals array. -/
def bucket_prefix_sum (h k : ℕ) (samples a : List ℚ) (i : ℕ) : ℕ :=
  ∑ b ∈ Finset.range i, bucket_counts h k samples a b

/-- Modelled from the spec: group_wide_search is not among the provided
sources, only its callers are. Per the spec it locates the first index in
the range starting at `offset` of length `len` whose predicate holds,
returning the end of the range when none does. -/
def group_wide_search (offset len : ℕ) (pred : ℕ → Bool) : ℕ :=
  offset + (List.range len).findIdx fun i => pred (offset + i)

/-- The selected-bucket descriptor, source field names idx/begin/size. -/
structure sampleselect_bucket where
  idx : ℕ
  base : ℕ
  size : ℕ

/-- find_bucket: search the bucket range for the first bucket whose
inclusive prefix bound exceeds the rank, and return it together with its
base offset and its element count read from the prefix sum. -/
def find_bucket (w : ℕ) (ps : ℕ → ℕ) (rank : ℕ) : sampleselect_bucket :=
  let idx := group_wide_search 0 w fun i => decide (rank < ps (i + 1))
  ⟨idx, ps idx, ps (idx + 1) - ps idx⟩

/-- filter_bucket: copy the magnitude of every input element whose oracle
entry equals the target bucket to the compact output, in input order (the
atomic output counter seeded by the block offsets makes the device write
positions consecutive in this same order). -/
def filter_bucket (a : List ℚ) (oracles : List ℕ) (bucket : ℕ) : List ℚ :=
  (a.zip oracles).filterMap fun v => if v.2 = bucket then some |v.1| else none

/-- Size bound below which the recursion switches to basecase_select. -/
def basecase_size : ℕ := 1024

/-- basecase_select: load the first basecase_size elements, pad the
remaining slots with the positive-infinity sentinel, sort (the bitonic
network is modelled as a sort) and read the element at the requested
rank. -/
def basecase_select (l : List ℚ) (rank : ℕ) : WithTop ℚ :=
  let padded := (l.take basecase_size).map (fun x : ℚ => (x : WithTop ℚ)) ++
    List.replicate (basecase_size - min l.length basecase_size) (⊤ : WithTop ℚ)
  (padded.mergeSort fun a b => decide (a ≤ b)).getD rank ⊤

/-- The compacted contents of the bucket selected for rank `r`. -/
def pipeline_bucket (h k : ℕ) (a samples : List ℚ) (r : ℕ) : List ℚ :=
  filter_bucket a (count_buckets_oracles h k samples a)
    (find_bucket (2 ^ h) (bucket_prefix_sum h k samples a) r).idx

/-- Modelled from the spec: the host-side driver composing one level of the
sample-select recursion is not among the provided sources. Per the spec it
classifies every element into a bucket of the sample search tree, counts
the buckets and forms their prefix sum, locates the bucket holding the
requested rank, rebases the rank by the bucket base offset, compacts the
bucket, and runs the sort-based base case on the compacted bucket. -/
def sampleselect_pipeline (h k : ℕ) (a samples : List ℚ) (r : ℕ) : WithTop ℚ :=
  basecase_select (pipeline_bucket h k a samples r)
    (r - (find_bucket (2 ^ h) (bucket_prefix_sum h k samples a) r).base)

/-- The magnitude array of the input, sorted: the full-sort selection
reference. -/
def sorted_abs (a : List ℚ) : List ℚ :=
  (a.map fun v => |v|).mergeSort fun a b => decide (a ≤ b)

/-- The sorted splitter drawn by build_searchtree thread `i`: the first
element of its sorted sample block. -/
def splitter (k : ℕ) (samples : List ℚ) (i : ℕ) : ℚ :=
  (samples.mergeSort fun a b => decide (a ≤ b)).getD (i * k) 0

/-- The number of splitters that are at most `el`: the bucket a search-tree
walk over the sorted splitters lands in. -/
def splitter_count (h k : ℕ) (samples : List ℚ) (el : ℚ) : ℕ :=
  ((Finset.Ico 1 (2 ^ h)).filter fun i => splitter k samples i ≤ el).card

/-- Leaf `i` of the search tree, stored behind the inner nodes. -/
def searchtree_leaf (h k : ℕ) (samples : List ℚ) (i : ℕ) : ℚ :=
  (build_searchtree h k samples).getD (i + (2 ^ h - 1)) 0

/-- Leaf `i` of the search tree with the sentinel conventions of the bucket
invariant: leaf zero is minus infinity and the leaf past the last bucket is
plus infinity. -/
def searchtree_leaf_ext (h k : ℕ) (samples : List ℚ) (i : ℕ) : WithBot (WithTop ℚ) :=
  if i = 0 then ⊥
  else if 2 ^ h ≤ i then ⊤
  else ((searchtree_leaf h k samples i : WithTop ℚ) : WithBot (WithTop ℚ))

/-! ## Theorems about the elimination-forest builder -/

theorem forest_parent_eq_min_filter (numRows lCol : ℕ) (l : List ℕ)
    (hs : l.Sorted (· ≤ ·)) :
    forest_parent numRows lCol l = ((l.filter fun c => lCol < c).min?).getD numRows := by
  induction l with
  | nil => rfl
  | cons c rest ih =>
    rw [List.sorted_cons] at hs
    by_cases h : lCol < c
    · have hall : ∀ x ∈ rest.filter (fun c => lCol < c), c ≤ x := by
        intro x hx
        exact hs.1 x (List.mem_of_mem_filter hx)
      have hfold : ∀ (l' : List ℕ), (∀ x ∈ l', c ≤ x) → l'.foldl min c = c := by
        intro l'
        induction l' with
        | nil => intro _; rfl
        | cons y ys ihy =>
          intro hy
          simp only [List.foldl_cons]
          rw [min_eq_left (hy y (by simp))]
          exact ihy fun x hx => hy x (List.mem_cons_of_mem _ hx)
      simp only [forest_parent, if_pos h, List.filter_cons, decide_eq_true_eq, if_pos h]
      rw [List.min?_cons]
      cases hm : (rest.filter fun c => decide (lCol < c)).min? with
      | none => simp
      | some m =>
        have hmem : m ∈ rest.filter fun c => decide (lCol < c) :=
          List.min?_mem (fun a b => min_choice a b) hm
        simp [min_eq_left (hall m hmem)]
    · simp only [forest_parent, if_neg h, List.filter_cons]
      rw [if_neg (by simpa using h)]
      exact ih hs.2

/-- C6 (amended): for every row `j` of a factor matrix with sorted stored
column indices (the upper-triangle storage of the lower factor), the
elimination-forest builder assigns as parent of `j` the smallest stored
column index `i > j` of row `j`, that is the smallest row `i > j` whose
factor entry in column `j` is stored, and the sentinel pseudo-root `numRows`
when no such entry exists. -/
theorem forest_from_factor_parent_is_min (numRows : ℕ) (rowPtrs colIdxs : List ℕ) (j : ℕ)
    (hj : j < numRows) (hs : (csr_row rowPtrs colIdxs j).Sorted (· ≤ ·)) :
    (forest_from_factor numRows rowPtrs colIdxs).getD j 0 =
      (((csr_row rowPtrs colIdxs j).filter fun c => j < c).min?).getD numRows := by
  unfold forest_from_factor
  rw [List.getD_eq_getElem _ _ (by simpa using hj)]
  rw [List.getElem_map, List.getElem_range]
  exact forest_parent_eq_min_filter numRows j _ hs

/-- C6 witness: the parent rule evaluated on row 2 of the scenario factor
pattern. -/
theorem forest_from_factor_parent_is_min_witness :
    2 < 4 ∧ (csr_row [0, 3, 5, 8, 10] [0, 1, 2, 0, 1, 0, 2, 3, 2, 3] 2).Sorted (· ≤ ·) ∧
      (forest_from_factor 4 [0, 3, 5, 8, 10] [0, 1, 2, 0, 1, 0, 2, 3, 2, 3]).getD 2 0 =
        (((csr_row [0, 3, 5, 8, 10] [0, 1, 2, 0, 1, 0, 2, 3, 2, 3] 2).filter
          fun c => 2 < c).min?).getD 4 :=
  ⟨by decide, by decide,
    forest_from_factor_parent_is_min 4 _ _ 2 (by decide) (by decide)⟩

/-- C6 counterexample: on the 4-by-4 scenario pattern with off-diagonal
nonzeros (1,0), (2,0), (3,2) the kernel does not produce the parents array
[4, 4, 0, 2] claimed by the spec scenario, neither when the factor stores
both triangles of the pattern (parents [1, 4, 3, 4]) nor when it stores the
lower triangle literally (parents [4, 4, 4, 4]). Indeed the kernel can
never return a parent smaller than the row index, while the claimed array
has parent 0 for row 2. -/
theorem forest_from_factor_scenario_counterexample :
    forest_from_factor 4 [0, 3, 5, 8, 10] [0, 1, 2, 0, 1, 0, 2, 3, 2, 3] = [1, 4, 3, 4] ∧
      forest_from_factor 4 [0, 3, 5, 8, 10] [0, 1, 2, 0, 1, 0, 2, 3, 2, 3] ≠ [4, 4, 0, 2] ∧
      forest_from_factor 4 [0, 1, 3, 5, 7] [0, 0, 1, 0, 2, 2, 3] = [4, 4, 4, 4] ∧
      forest_from_factor 4 [0, 1, 3, 5, 7] [0, 0, 1, 0, 2, 2, 3] ≠ [4, 4, 0, 2] := by
  refine ⟨by decide, by decide, by decide, by decide⟩

/-! ## Theorems about the symbolic factorization passes -/

theorem parent_chain_length_eq_chain_count (parent : ℕ → ℕ) (next : ℕ) :
    ∀ fuel node, (parent_chain parent next fuel node).length = chain_count parent next fuel node := by
  intro fuel
  induction fuel with
  | zero => intro node; rfl
  | succ f ih =>
    intro node
    simp only [parent_chain, chain_count]
    by_cases h : node < next
    · simp [h, ih]
    · simp [h]

theorem symbolic_factorize_row_length (postorderCols : List ℕ)
    (rowBegin lowerEnd diagPostorder : ℕ) (parent postorder : ℕ → ℕ) (row : ℕ) :
    (symbolic_factorize_row postorderCols rowBegin lowerEnd diagPostorder parent postorder
      row).length =
      symbolic_count_row postorderCols rowBegin lowerEnd diagPostorder parent := by
  unfold symbolic_factorize_row symbolic_count_row
  rw [List.length_append, List.length_flatten]
  simp only [List.map_map, List.length_map, List.length_singleton]
  congr 1
  congr 1
  apply List.map_congr_left
  intro nz _
  simp only [Function.comp_apply, List.length_map]
  exact parent_chain_length_eq_chain_count _ _ _ _

/-- C7: for every row, the number of column indices written by the fill pass
`symbolic_factorize` (all parent-chain entries of the row plus the diagonal
entry) is exactly the count `row_nnz[row]` produced by the counting pass
`symbolic_count`, so with the output offsets sized from these counts the
fill pass never writes outside its row range. The hypothesis records the
elimination-forest property that parents strictly increase, under which the
fuel used in the embedded walks covers the device loops exactly. -/
theorem symbolic_factorize_writes_eq_symbolic_count (numRows : ℕ)
    (rowPtrs lowerEnds invPostorder postorderCols : List ℕ) (parent postorder : ℕ → ℕ)
    (hp : ∀ x, x < parent x) (row : ℕ) (hrow : row < numRows) :
    ((symbolic_factorize numRows rowPtrs lowerEnds invPostorder postorderCols parent
        postorder).getD row []).length =
      (symbolic_count numRows rowPtrs lowerEnds invPostorder postorderCols parent).getD row 0 := by
  unfold symbolic_factorize symbolic_count
  rw [List.getD_eq_getElem _ _ (by simpa using hrow),
    List.getD_eq_getElem _ _ (by simpa using hrow)]
  rw [List.getElem_map, List.getElem_map, List.getElem_range]
  exact symbolic_factorize_row_length _ _ _ _ _ _ _

/-- C7 witness: the counting pass and the fill pass agree on a concrete
two-row pattern with parent function `Nat.succ`. -/
theorem symbolic_factorize_writes_eq_symbolic_count_witness :
    (∀ x, x < Nat.succ x) ∧ 1 < 2 ∧
      ((symbolic_factorize 2 [0, 0, 1] [0, 0, 1] [0, 1] [0] Nat.succ id).getD 1 []).length =
        (symbolic_count 2 [0, 0, 1] [0, 0, 1] [0, 1] [0] Nat.succ).getD 1 0 :=
  ⟨Nat.lt_succ_self, by decide,
    symbolic_factorize_writes_eq_symbolic_count 2 [0, 0, 1] [0, 0, 1] [0, 1] [0]
      Nat.succ id (fun x => Nat.lt_succ_self x) 1 (by decide)⟩

/-! ## Theorems about the precision-reduction feasibility check -/

/-- C10: validate_precision_reduction_feasibility restores the block from
the work buffer before returning, so every lane's row registers hold their
original values after the call, whether the check accepts or rejects. -/
theorem validate_precision_reduction_feasibility_frame {n : ℕ} (roundTrip : ℚ → ℚ)
    (eps : ℚ) (row : Matrix (Fin n) (Fin n) ℚ) :
    (validate_precision_reduction_feasibility roundTrip eps row).2 = row := rfl

/-- C5 (amended): the feasibility check accepts exactly when the inversion
of the round-tripped block succeeds, the condition-number surrogate is at
least one, and the surrogate times the unit roundoff of the working value
format, not of the reduced storage format, stays below 1/1000. -/
theorem validate_precision_reduction_feasibility_accepts_iff {n : ℕ} (roundTrip : ℚ → ℚ)
    (eps : ℚ) (row : Matrix (Fin n) (Fin n) ℚ) :
    (validate_precision_reduction_feasibility roundTrip eps row).1 = true ↔
      ((invert_block (Matrix.of fun t i => roundTrip (row t i))).status = true ∧
        1 ≤ block_cond roundTrip row ∧ block_cond roundTrip row * eps < 1 / 1000) := by
  simp [validate_precision_reduction_feasibility, block_cond, Bool.and_assoc, and_assoc]

/-- C5 counterexample: a two-by-two block, exactly representable in a
half-precision reduced format with unit roundoff two to the minus ten (so
the round trip is the identity), in a double-precision working format with
unit roundoff two to the minus fifty-two. The check accepts the block, its
inversion succeeds, and the surrogate condition number 1024 is at least
one, yet the surrogate times the unit roundoff of the reduced storage
format is one, far above 1/1000: acceptance is not equivalent to the
condition stated in the claim, because the code multiplies by the working
unit roundoff. -/
theorem validate_precision_reduction_feasibility_eps_counterexample :
    (validate_precision_reduction_feasibility id (1 / 2 ^ 52)
        (Matrix.of ![![(1 : ℚ) / 512, 0], ![0, 2]])).1 = true ∧
      (invert_block (Matrix.of fun t i =>
        id (Matrix.of ![![(1 : ℚ) / 512, 0], ![0, 2]] t i))).status = true ∧
      1 ≤ block_cond id (Matrix.of ![![(1 : ℚ) / 512, 0], ![0, 2]]) ∧
      ¬ (block_cond id (Matrix.of ![![(1 : ℚ) / 512, 0], ![0, 2]]) * (1 / 2 ^ 10) <
        1 / 1000) := by
  refine ⟨by with_unfolding_all decide, by with_unfolding_all decide,
    by with_unfolding_all decide, by with_unfolding_all decide⟩

/-! ## Theorems about the warp-wide precision commit -/


theorem nat_xor_xor_cancel_right (a b c : ℕ) : (a ^^^ c) ^^^ (b ^^^ c) = a ^^^ b := by
  rw [Nat.xor_comm b c, Nat.xor_assoc, ← Nat.xor_assoc c c b, Nat.xor_self, Nat.zero_xor]

theorem nat_testBit_true_of_between (x s : ℕ) (hlt : x < 2 ^ (s + 1)) (hge : 2 ^ s ≤ x) :
    x.testBit s = true := by
  rw [Nat.testBit_to_div_mod]
  have hpos : 0 < 2 ^ s := Nat.two_pow_pos s
  have h1 : 1 ≤ x / 2 ^ s := (Nat.one_le_div_iff hpos).mpr hge
  have h2 : x / 2 ^ s < 2 := by
    rw [Nat.div_lt_iff_lt_mul hpos]
    have hps : 2 ^ (s + 1) = 2 ^ s * 2 := pow_succ 2 s
    omega
  have hdiv : x / 2 ^ s = 1 := by omega
  simp [hdiv]

theorem nat_lt_pow_of_testBit_false (x s : ℕ) (hlt : x < 2 ^ (s + 1))
    (hb : x.testBit s = false) : x < 2 ^ s := by
  by_contra hge
  push_neg at hge
  rw [nat_testBit_true_of_between x s hlt hge] at hb
  exact Bool.noConfusion hb

theorem shfl_xor_reduce_land_eq_of_xor_lt (f : ℕ → ℕ) :
    ∀ s l l', l ^^^ l' < 2 ^ s →
      shfl_xor_reduce (fun x y => x &&& y) f s l =
        shfl_xor_reduce (fun x y => x &&& y) f s l' := by
  intro s
  induction s with
  | zero =>
    intro l l' h
    have h0 : l ^^^ l' = 0 := Nat.lt_one_iff.mp (by simpa using h)
    rw [Nat.xor_eq_zero.mp h0]
  | succ s ih =>
    intro l l' h
    by_cases hbit : (l ^^^ l').testBit s
    · have hx : (l ^^^ l') ^^^ 2 ^ s < 2 ^ s := by
        have hlt2 : (l ^^^ l') ^^^ 2 ^ s < 2 ^ (s + 1) :=
          Nat.xor_lt_two_pow h (Nat.pow_lt_pow_right (by norm_num) (Nat.lt_succ_self s))
        refine nat_lt_pow_of_testBit_false _ s hlt2 ?_
        simp [Nat.testBit_xor, hbit, Nat.testBit_two_pow_self]
      have h1 : l ^^^ (l' ^^^ 2 ^ s) < 2 ^ s := by
        rw [← Nat.xor_assoc]
        exact hx
      have h2 : (l ^^^ 2 ^ s) ^^^ l' < 2 ^ s := by
        have he : (l ^^^ 2 ^ s) ^^^ l' = (l ^^^ l') ^^^ 2 ^ s := by
          rw [Nat.xor_assoc, Nat.xor_comm (2 ^ s) l', ← Nat.xor_assoc]
        rwa [he]
      simp only [shfl_xor_reduce]
      rw [ih l (l' ^^^ 2 ^ s) h1, ih (l ^^^ 2 ^ s) l' h2]
      exact Nat.land_comm _ _
    · have hlow : l ^^^ l' < 2 ^ s :=
        nat_lt_pow_of_testBit_false _ s h (Bool.not_eq_true _ ▸ by simpa using hbit)
      have hhigh : (l ^^^ 2 ^ s) ^^^ (l' ^^^ 2 ^ s) < 2 ^ s := by
        rw [nat_xor_xor_cancel_right]
        exact hlow
      simp only [shfl_xor_reduce]
      rw [ih l l' hlow, ih (l ^^^ 2 ^ s) (l' ^^^ 2 ^ s) hhigh]

/-- C9: the storage precision committed by adaptive_generate is obtained
from the bitwise-and reduction of the per-lane feasibility descriptors
across the whole hardware execution group, so any two lanes of the warp,
and in particular all lanes covering one block, compute and write the same
precision tag: no two rows of a block are stored in different
precisions. -/
theorem adaptive_generate_committed_uniform (logW : ℕ) (opt : ℕ → ℕ) (desc : ℕ → ℕ)
    (l l' : ℕ) (hl : l < 2 ^ logW) (hl' : l' < 2 ^ logW) :
    adaptive_generate_committed logW opt desc l = adaptive_generate_committed logW opt desc l' :=
  congrArg opt
    (shfl_xor_reduce_land_eq_of_xor_lt desc logW l l' (Nat.xor_lt_two_pow hl hl'))

/-- C9 witness: two lanes of a four-lane group with distinct feasibility
descriptors commit the same tag. -/
theorem adaptive_generate_committed_uniform_witness :
    0 < 2 ^ 2 ∧ 3 < 2 ^ 2 ∧
      adaptive_generate_committed 2 id (fun l => [14, 13, 11, 7].getD l 15) 0 =
        adaptive_generate_committed 2 id (fun l => [14, 13, 11, 7].getD l 15) 3 :=
  ⟨by decide, by decide,
    adaptive_generate_committed_uniform 2 id (fun l => [14, 13, 11, 7].getD l 15) 0 3
      (by decide) (by decide)⟩

/-! ## Gauss-Jordan inverter: pivot choice and step algebra -/

theorem choose_pivot_foldl_fresh {n : ℕ} (keys : Fin n → ℚ) (pivoted : Fin n → Bool) :
    ∀ (l : List (Fin n)) (acc : Option (Fin n)),
      (∀ b, acc = some b → pivoted b = false) →
      ∀ p, l.foldl
        (fun best t =>
          if pivoted t then best
          else
            match best with
            | none => some t
            | some b => if |keys b| < |keys t| then some t else best) acc = some p →
        pivoted p = false := by
  intro l
  induction l with
  | nil =>
    intro acc hacc p hp
    exact hacc p hp
  | cons t rest ih =>
    intro acc hacc p hp
    simp only [List.foldl_cons] at hp
    refine ih _ ?_ p hp
    intro b hb
    simp only at hb
    by_cases hpt : pivoted t
    · rw [if_pos hpt] at hb
      exact hacc b hb
    · rw [if_neg hpt] at hb
      cases acc with
      | none =>
        simp only at hb
        cases hb
        simpa using hpt
      | some b0 =>
        simp only at hb
        by_cases hcmp : |keys b0| < |keys t|
        · rw [if_pos hcmp] at hb
          cases hb
          simpa using hpt
        · rw [if_neg hcmp] at hb
          exact hacc b hb

theorem choose_pivot_foldl_max {n : ℕ} (keys : Fin n → ℚ) (pivoted : Fin n → Bool) :
    ∀ (l : List (Fin n)) (acc : Option (Fin n)) (p : Fin n),
      l.foldl
        (fun best t =>
          if pivoted t then best
          else
            match best with
            | none => some t
            | some b => if |keys b| < |keys t| then some t else best) acc = some p →
      (∀ b, acc = some b → |keys b| ≤ |keys p|) ∧
        (∀ t ∈ l, pivoted t = false → |keys t| ≤ |keys p|) := by
  intro l
  induction l with
  | nil =>
    intro acc p hp
    simp only [List.foldl_nil] at hp
    refine ⟨?_, by simp⟩
    intro b hb
    rw [hp] at hb
    cases hb
    exact le_refl _
  | cons t rest ih =>
    intro acc p hp
    simp only [List.foldl_cons] at hp
    by_cases hpt : pivoted t
    · rw [if_pos hpt] at hp
      obtain ⟨h1, h2⟩ := ih _ p hp
      refine ⟨h1, ?_⟩
      intro u hu hfu
      rcases List.mem_cons.mp hu with rfl | hmem
      · rw [hfu] at hpt
        exact absurd hpt (by decide)
      · exact h2 u hmem hfu
    · rw [if_neg hpt] at hp
      cases acc with
      | none =>
        simp only at hp
        obtain ⟨h1, h2⟩ := ih _ p hp
        refine ⟨by simp, ?_⟩
        intro u hu hfu
        rcases List.mem_cons.mp hu with rfl | hmem
        · exact h1 u rfl
        · exact h2 u hmem hfu
      | some b0 =>
        simp only at hp
        by_cases hcmp : |keys b0| < |keys t|
        · rw [if_pos hcmp] at hp
          obtain ⟨h1, h2⟩ := ih _ p hp
          refine ⟨?_, ?_⟩
          · intro b hb
            cases hb
            exact le_trans (le_of_lt hcmp) (h1 t rfl)
          · intro u hu hfu
            rcases List.mem_cons.mp hu with rfl | hmem
            · exact h1 u rfl
            · exact h2 u hmem hfu
        · rw [if_neg hcmp] at hp
          obtain ⟨h1, h2⟩ := ih _ p hp
          refine ⟨h1, ?_⟩
          intro u hu hfu
          rcases List.mem_cons.mp hu with rfl | hmem
          · exact le_trans (not_lt.mp hcmp) (h1 b0 rfl)
          · exact h2 u hmem hfu

theorem choose_pivot_foldl_isSome {n : ℕ} (keys : Fin n → ℚ) (pivoted : Fin n → Bool) :
    ∀ (l : List (Fin n)) (acc : Option (Fin n)),
      (acc ≠ none ∨ ∃ t ∈ l, pivoted t = false) →
      l.foldl
        (fun best t =>
          if pivoted t then best
          else
            match best with
            | none => some t
            | some b => if |keys b| < |keys t| then some t else best) acc ≠ none := by
  intro l
  induction l with
  | nil =>
    intro acc h
    rcases h with h | ⟨t, ht, _⟩
    · exact h
    · exact absurd ht (List.not_mem_nil t)
  | cons t rest ih =>
    intro acc h
    simp only [List.foldl_cons]
    by_cases hpt : pivoted t
    · rw [if_pos hpt]
      refine ih _ ?_
      rcases h with h | ⟨u, hu, hfu⟩
      · exact Or.inl h
      · rcases List.mem_cons.mp hu with rfl | hmem
        · rw [hfu] at hpt
          exact absurd hpt (by simp)
        · exact Or.inr ⟨u, hmem, hfu⟩
    · rw [if_neg hpt]
      refine ih _ (Or.inl ?_)
      cases acc with
      | none => simp
      | some b0 =>
        by_cases hcmp : |keys b0| < |keys t| <;> simp [hcmp]

theorem choose_pivot_spec {n : ℕ} (keys : Fin n → ℚ) (pivoted : Fin n → Bool)
    (p : Fin n) (hp : choose_pivot keys pivoted = some p) :
    pivoted p = false ∧ ∀ t, pivoted t = false → |keys t| ≤ |keys p| := by
  refine ⟨choose_pivot_foldl_fresh keys pivoted _ none (by simp) p hp, ?_⟩
  intro t hft
  exact (choose_pivot_foldl_max keys pivoted _ none p hp).2 t (List.mem_finRange t) hft

theorem choose_pivot_isSome {n : ℕ} (keys : Fin n → ℚ) (pivoted : Fin n → Bool)
    (h : ∃ t, pivoted t = false) : ∃ p, choose_pivot keys pivoted = some p := by
  obtain ⟨t, ht⟩ := h
  have := choose_pivot_foldl_isSome keys pivoted (List.finRange n) none
    (Or.inr ⟨t, List.mem_finRange t, ht⟩)
  cases hcp : choose_pivot keys pivoted with
  | none => exact absurd hcp this
  | some p => exact ⟨p, rfl⟩

theorem invert_upto_zero {n : ℕ} (a : Matrix (Fin n) (Fin n) ℚ) :
    invert_upto a 0 = ⟨a, fun _ => false, fun t => t, fun t => t, true⟩ := rfl

theorem invert_upto_succ {n : ℕ} (a : Matrix (Fin n) (Fin n) ℚ) (k : ℕ) (hk : k < n) :
    invert_upto a (k + 1) = invert_step (invert_upto a k) ⟨k, hk⟩ := by
  unfold invert_upto
  have hlen : k < (List.finRange n).length := by simpa using hk
  rw [List.take_succ, List.getElem?_eq_getElem hlen, List.foldl_append]
  simp [List.getElem_finRange, Fin.cast]

theorem invert_block_eq_upto {n : ℕ} (a : Matrix (Fin n) (Fin n) ℚ) :
    invert_block a = invert_upto a n := rfl

theorem gj_elim_mul {n : ℕ} (u : Fin n → ℚ) (p : Fin n) (m : Matrix (Fin n) (Fin n) ℚ) :
    gj_elim u p * m = Matrix.of fun t j => m t j + u t * m p j := by
  unfold gj_elim
  rw [Matrix.add_mul, Matrix.one_mul]
  ext t j
  simp only [Matrix.add_apply, Matrix.of_apply]
  congr 1
  rw [Matrix.mul_apply]
  rw [Finset.sum_eq_single p]
  · simp
  · intro r _ hr
    simp [if_neg hr]
  · intro habs
    exact absurd (Finset.mem_univ p) habs

theorem gj_elim_mul_eq_one {n : ℕ} (u v : Fin n → ℚ) (p : Fin n)
    (h : ∀ t, u t + v t + u t * v p = 0) : gj_elim u p * gj_elim v p = 1 := by
  rw [gj_elim_mul]
  ext t j
  simp only [gj_elim, Matrix.of_apply, Matrix.add_apply, Matrix.one_apply]
  by_cases hj : j = p
  · by_cases ht : t = p
    · simp only [hj, ht, if_pos rfl, if_true, eq_self_iff_true]
      linear_combination h p
    · simp only [hj, if_pos rfl, if_neg ht, if_true, eq_self_iff_true]
      linear_combination h t
  · simp only [if_neg hj, if_neg (Ne.symm hj)]
    ring

theorem isUnit_gj_elim {n : ℕ} (u : Fin n → ℚ) (p : Fin n) (d : ℚ) (hd : d ≠ 0)
    (hup : u p = 1 / d - 1) : IsUnit (gj_elim u p) := by
  have h : ∀ t, u t + (fun t => -d * u t) t + u t * (fun t => -d * u t) p = 0 := by
    intro t
    simp only [hup]
    field_simp
    ring
  have h2 : gj_elim u p * gj_elim (fun t => -d * u t) p = 1 := gj_elim_mul_eq_one _ _ p h
  exact ⟨⟨gj_elim u p, gj_elim (fun t => -d * u t) p, h2, Matrix.mul_eq_one_comm.mp h2⟩, rfl⟩

theorem apply_gauss_jordan_transform_of_zero {n : ℕ} (p i : Fin n)
    (r : Matrix (Fin n) (Fin n) ℚ) (st : Bool) (hd : r p i = 0) :
    apply_gauss_jordan_transform p i r st = (r, false) := by
  unfold apply_gauss_jordan_transform
  rw [if_pos hd]

theorem apply_gauss_jordan_transform_snd {n : ℕ} (p i : Fin n)
    (r : Matrix (Fin n) (Fin n) ℚ) (st : Bool) (hd : r p i ≠ 0) :
    (apply_gauss_jordan_transform p i r st).2 = st := by
  unfold apply_gauss_jordan_transform
  rw [if_neg hd]

theorem apply_gauss_jordan_transform_fst {n : ℕ} (p i : Fin n)
    (r : Matrix (Fin n) (Fin n) ℚ) (st : Bool) (hd : r p i ≠ 0) :
    (apply_gauss_jordan_transform p i r st).1 =
      Matrix.of fun t j =>
        if j = i then gj_coeff r p i t else (gj_elim (gj_update r p i) p * r) t j := by
  unfold apply_gauss_jordan_transform
  rw [if_neg hd]
  ext t j
  simp only [Matrix.of_apply]
  by_cases hj : j = i
  · rw [if_pos hj, if_pos hj]
    rfl
  · rw [if_neg hj, if_neg hj, gj_elim_mul]
    simp only [Matrix.of_apply, gj_update, gj_coeff]
    by_cases ht : t = p
    · rw [ht]
      simp only [if_pos rfl, if_true, eq_self_iff_true]
      ring
    · rw [if_neg ht, if_neg ht, if_neg ht]
      ring

theorem invert_step_eq {n : ℕ} (s : gj_state n) (i p : Fin n)
    (hp : choose_pivot (fun t => s.row t i) s.pivoted = some p) :
    invert_step s i =
      ⟨(apply_gauss_jordan_transform p i s.row s.status).1,
        Function.update s.pivoted p true, Function.update s.perm p i,
        Function.update s.trans_perm i p,
        (apply_gauss_jordan_transform p i s.row s.status).2⟩ := by
  unfold invert_step
  rw [hp]
  rfl

theorem gj_update_pivot {n : ℕ} (r : Matrix (Fin n) (Fin n) ℚ) (p i : Fin n) :
    gj_update r p i p = 1 / r p i - 1 := by
  simp [gj_update, gj_coeff]

theorem gj_elim_apply {n : ℕ} (u : Fin n → ℚ) (p t s : Fin n) :
    gj_elim u p t s = (if t = s then 1 else 0) + if s = p then u t else 0 := by
  simp [gj_elim, Matrix.one_apply]

theorem mul_basis_col {n : ℕ} (f : Matrix (Fin n) (Fin n) ℚ) (t p : Fin n)
    (g : Fin n → ℚ) (hg : ∀ r, g r = if r = p then 1 else 0) :
    (∑ r, f t r * g r) = f t p := by
  rw [Finset.sum_congr rfl fun r _ => by rw [hg r]]
  rw [Finset.sum_eq_single p]
  · simp
  · intro r _ hr
    simp [if_neg hr]
  · intro habs
    exact absurd (Finset.mem_univ p) habs

theorem gj_inv_zero {n : ℕ} (a : Matrix (Fin n) (Fin n) ℚ) : gj_inv a 0 (invert_upto a 0) := by
  rw [invert_upto_zero]
  refine ⟨?_, ?_, ?_, ?_⟩
  · intro t
    simp
  · intro j j' hj hj' _
    exact absurd hj (Nat.not_lt_zero _)
  · intro j hj
    exact absurd hj (Nat.not_lt_zero _)
  · intro _
    refine ⟨1, isUnit_one, ?_, ?_, ?_⟩
    · rw [Matrix.one_mul]
      ext t j
      simp [gj_target]
    · intro j hj
      exact absurd hj (Nat.not_lt_zero _)
    · intro t _ r
      simp [Matrix.one_apply]

theorem gj_exists_fresh {n k : ℕ} (hkn : k < n) (s : gj_state n)
    (hbk : ∀ t, s.pivoted t = true ↔ ∃ j : Fin n, (j : ℕ) < k ∧ s.trans_perm j = t) :
    ∃ t, s.pivoted t = false := by
  by_contra hall
  push_neg at hall
  have hallT : ∀ t, s.pivoted t = true := by
    intro t
    cases h : s.pivoted t
    · exact absurd h (hall t)
    · rfl
  have hchoice : ∀ t : Fin n, ∃ j : Fin n, (j : ℕ) < k ∧ s.trans_perm j = t :=
    fun t => (hbk t).mp (hallT t)
  choose g hg1 hg2 using hchoice
  have hmap : Function.Injective fun t => (⟨(g t : ℕ), hg1 t⟩ : Fin k) := by
    intro t t' he
    simp only [Fin.mk.injEq] at he
    have : g t = g t' := Fin.ext he
    rw [← hg2 t, ← hg2 t', this]
  have hcard := Fintype.card_le_of_injective _ hmap
  simp only [Fintype.card_fin] at hcard
  omega

theorem gj_inv_step {n : ℕ} (a : Matrix (Fin n) (Fin n) ℚ) (k : ℕ) (s : gj_state n)
    (i : Fin n) (hik : (i : ℕ) = k) (hinv : gj_inv a k s) :
    gj_inv a (k + 1) (invert_step s i) := by
  obtain ⟨hbk, hinj, hpm, hF⟩ := hinv
  have hkn : k < n := hik ▸ i.isLt
  have hexists : ∃ t, s.pivoted t = false := gj_exists_fresh hkn s hbk
  obtain ⟨p, hp⟩ := choose_pivot_isSome (fun t => s.row t i) s.pivoted hexists
  have hfresh : s.pivoted p = false := (choose_pivot_spec _ _ p hp).1
  rw [invert_step_eq s i p hp]
  have hne_i : ∀ j : Fin n, (j : ℕ) < k → j ≠ i := by
    intro j hj he
    rw [he, hik] at hj
    exact absurd hj (lt_irrefl k)
  have htp_lt : ∀ j : Fin n, (j : ℕ) < k →
      Function.update s.trans_perm i p j = s.trans_perm j := by
    intro j hj
    exact Function.update_noteq (hne_i j hj) _ _
  have htp_i : Function.update s.trans_perm i p i = p := Function.update_same _ _ _
  have hpiv_ne : ∀ j : Fin n, (j : ℕ) < k → s.trans_perm j ≠ p := by
    intro j hj he
    have hmem : s.pivoted p = true := (hbk p).mpr ⟨j, hj, he⟩
    rw [hfresh] at hmem
    exact Bool.noConfusion hmem
  refine ⟨?_, ?_, ?_, ?_⟩
  · intro t
    dsimp only
    constructor
    · intro h
      by_cases htp0 : t = p
      · exact ⟨i, by omega, by rw [htp_i, htp0]⟩
      · rw [Function.update_noteq htp0] at h
        obtain ⟨j, hj, hje⟩ := (hbk t).mp h
        exact ⟨j, by omega, by rw [htp_lt j hj]; exact hje⟩
    · rintro ⟨j, hj, hje⟩
      by_cases hji : j = i
      · rw [hji, htp_i] at hje
        rw [← hje, Function.update_same]
      · have hjk : (j : ℕ) < k := by
          have : (j : ℕ) ≠ (i : ℕ) := fun he => hji (Fin.ext he)
          omega
        rw [htp_lt j hjk] at hje
        have hpt : s.pivoted t = true := (hbk t).mpr ⟨j, hjk, hje⟩
        have htne : t ≠ p := by
          intro he
          rw [he, hfresh] at hpt
          exact Bool.noConfusion hpt
        rw [Function.update_noteq htne]
        exact hpt
  · intro j j' hj hj' he
    dsimp only at he
    by_cases hji : j = i
    · by_cases hji' : j' = i
      · rw [hji, hji']
      · have hjk' : (j' : ℕ) < k := by
          have : (j' : ℕ) ≠ (i : ℕ) := fun hv => hji' (Fin.ext hv)
          omega
        rw [hji, htp_i, htp_lt j' hjk'] at he
        exact absurd he.symm (hpiv_ne j' hjk')
    · have hjk : (j : ℕ) < k := by
        have : (j : ℕ) ≠ (i : ℕ) := fun hv => hji (Fin.ext hv)
        omega
      by_cases hji' : j' = i
      · rw [hji', htp_i, htp_lt j hjk] at he
        exact absurd he (hpiv_ne j hjk)
      · have hjk' : (j' : ℕ) < k := by
          have : (j' : ℕ) ≠ (i : ℕ) := fun hv => hji' (Fin.ext hv)
          omega
        rw [htp_lt j hjk, htp_lt j' hjk'] at he
        exact hinj j j' hjk hjk' he
  · intro j hj
    dsimp only
    by_cases hji : j = i
    · rw [hji, htp_i, Function.update_same]
    · have hjk : (j : ℕ) < k := by
        have : (j : ℕ) ≠ (i : ℕ) := fun hv => hji (Fin.ext hv)
        omega
      rw [htp_lt j hjk, Function.update_noteq (hpiv_ne j hjk)]
      exact hpm j hjk
  · intro hst
    dsimp only at hst ⊢
    by_cases hd : s.row p i = 0
    · rw [apply_gauss_jordan_transform_of_zero p i s.row s.status hd] at hst
      exact absurd hst (by simp)
    · rw [apply_gauss_jordan_transform_snd p i s.row s.status hd] at hst
      obtain ⟨f, hfu, hrow, hcols, hid⟩ := hF hst
      refine ⟨gj_elim (gj_update s.row p i) p * f,
        ((isUnit_gj_elim (gj_update s.row p i) p (s.row p i) hd
          (gj_update_pivot s.row p i)).mul hfu), ?_, ?_, ?_⟩
      · rw [apply_gauss_jordan_transform_fst p i s.row s.status hd]
        ext t j
        simp only [Matrix.of_apply]
        by_cases hj : j = i
        · rw [if_pos hj, hj]
          have hcolb : ∀ r, gj_target a (Function.update s.trans_perm i p) (k + 1) r i =
              if r = p then 1 else 0 := by
            intro r
            simp only [gj_target, Matrix.of_apply]
            rw [if_pos (by omega), htp_i]
          have h1 : ∀ t0, (f * gj_target a (Function.update s.trans_perm i p) (k + 1)) t0 i =
              f t0 p := by
            intro t0
            rw [Matrix.mul_apply]
            exact mul_basis_col f t0 p _ hcolb
          rw [Matrix.mul_assoc, gj_elim_mul]
          simp only [Matrix.of_apply]
          rw [h1 t, h1 p, hid p hfresh t, hid p hfresh p]
          simp only [if_pos rfl, mul_one, gj_update, if_true, eq_self_iff_true]
          ring
        · rw [if_neg hj]
          have hcolb : ∀ r, gj_target a (Function.update s.trans_perm i p) (k + 1) r j =
              gj_target a s.trans_perm k r j := by
            intro r
            simp only [gj_target, Matrix.of_apply]
            by_cases hjk : (j : ℕ) < k
            · rw [if_pos (by omega), if_pos hjk, htp_lt j hjk]
            · have hge : ¬ (j : ℕ) < k + 1 := by
                have : (j : ℕ) ≠ k := by
                  intro he
                  exact hj (Fin.ext (by rw [he, hik]))
                omega
              rw [if_neg hge, if_neg hjk]
          have hfU : ∀ t0,
              (f * gj_target a (Function.update s.trans_perm i p) (k + 1)) t0 j =
                s.row t0 j := by
            intro t0
            rw [Matrix.mul_apply]
            rw [Finset.sum_congr rfl fun r _ => by rw [hcolb r]]
            rw [← Matrix.mul_apply, ← hrow]
          rw [Matrix.mul_assoc,
            gj_elim_mul (gj_update s.row p i) p
              (f * gj_target a (Function.update s.trans_perm i p) (k + 1)),
            gj_elim_mul (gj_update s.row p i) p s.row]
          simp only [Matrix.of_apply]
          rw [hfU t, hfU p]
      · intro j hj t
        rw [Matrix.mul_assoc, gj_elim_mul]
        simp only [Matrix.of_apply]
        by_cases hjk : (j : ℕ) < k
        · rw [htp_lt j hjk, hcols j hjk t, hcols j hjk p]
          rw [if_neg (Ne.symm (hpiv_ne j hjk))]
          ring
        · have hji : j = i := by
            apply Fin.ext
            omega
          rw [hji, htp_i]
          have hfa : ∀ t0, (f * a) t0 i = s.row t0 i := by
            intro t0
            rw [hrow, Matrix.mul_apply, Matrix.mul_apply]
            refine Finset.sum_congr rfl fun r _ => ?_
            congr 1
            simp only [gj_target, Matrix.of_apply]
            rw [if_neg (by omega)]
          rw [hfa t, hfa p]
          by_cases ht : t = p
          · rw [ht, if_pos rfl]
            simp only [gj_update, gj_coeff, if_pos rfl]
            field_simp
          · rw [if_neg ht]
            simp only [gj_update, gj_coeff, if_neg ht]
            field_simp
      · intro t hft r
        have htne : t ≠ p := by
          intro he
          rw [he, Function.update_same] at hft
          exact Bool.noConfusion hft
        have hft2 : s.pivoted t = false := by
          rwa [Function.update_noteq htne] at hft
        rw [Matrix.mul_apply]
        rw [Finset.sum_congr rfl fun q _ => by rw [hid t hft2 q]]
        rw [mul_basis_col (gj_elim (gj_update s.row p i) p) r t
          (fun q => if q = t then 1 else 0) (fun q => rfl)]
        rw [gj_elim_apply, if_neg htne, add_zero]

theorem gj_inv_all {n : ℕ} (a : Matrix (Fin n) (Fin n) ℚ) :
    ∀ k, k ≤ n → gj_inv a k (invert_upto a k) := by
  intro k
  induction k with
  | zero => intro _; exact gj_inv_zero a
  | succ k ih =>
    intro hk1
    have hk : k < n := by omega
    rw [invert_upto_succ a k hk]
    exact gj_inv_step a k (invert_upto a k) ⟨k, hk⟩ rfl (ih (by omega))

theorem invert_upto_status_succ {n : ℕ} (a : Matrix (Fin n) (Fin n) ℚ) (k : ℕ)
    (hk : k < n) :
    (invert_upto a (k + 1)).status = true ↔
      (pivot_element a ⟨k, hk⟩ ≠ 0 ∧ (invert_upto a k).status = true) := by
  rw [invert_upto_succ a k hk]
  unfold invert_step pivot_element
  dsimp only
  by_cases hd : (invert_upto a k).row
      ((choose_pivot (fun t => (invert_upto a k).row t ⟨k, hk⟩)
        (invert_upto a k).pivoted).getD ⟨k, hk⟩) ⟨k, hk⟩ = 0
  · rw [apply_gauss_jordan_transform_of_zero _ _ _ _ hd]
    simp [hd]
  · rw [apply_gauss_jordan_transform_snd _ _ _ _ hd]
    simp [hd]

theorem invert_upto_status_iff {n : ℕ} (a : Matrix (Fin n) (Fin n) ℚ) :
    ∀ k, k ≤ n → ((invert_upto a k).status = true ↔
      ∀ i : Fin n, (i : ℕ) < k → pivot_element a i ≠ 0) := by
  intro k
  induction k with
  | zero =>
    intro _
    constructor
    · intro _ i hi
      exact absurd hi (Nat.not_lt_zero _)
    · intro _
      rfl
  | succ k ih =>
    intro hk1
    have hk : k < n := by omega
    rw [invert_upto_status_succ a k hk, ih (by omega)]
    constructor
    · rintro ⟨hpe, hall⟩ i hi
      by_cases hik : (i : ℕ) = k
      · have : i = ⟨k, hk⟩ := Fin.ext hik
        rw [this]
        exact hpe
      · exact hall i (by omega)
    · intro hall
      exact ⟨hall ⟨k, hk⟩ (Nat.lt_succ_self k), fun i hi => hall i (by omega)⟩

theorem pivot_element_ne_zero_of_isUnit {n : ℕ} (a : Matrix (Fin n) (Fin n) ℚ)
    (ha : IsUnit a) (k : ℕ) (hk : k < n)
    (hstat : (invert_upto a k).status = true) : pivot_element a ⟨k, hk⟩ ≠ 0 := by
  intro hzero
  obtain ⟨hbk, hinj, hpm, hF⟩ := gj_inv_all a k (le_of_lt hk)
  obtain ⟨f, hfu, hrow, hcols, hid⟩ := hF hstat
  obtain ⟨p, hp⟩ := choose_pivot_isSome
    (fun t => (invert_upto a k).row t ⟨k, hk⟩) (invert_upto a k).pivoted
    (gj_exists_fresh hk _ hbk)
  have hmax := (choose_pivot_spec _ _ p hp).2
  have hpe : pivot_element a ⟨k, hk⟩ = (invert_upto a k).row p ⟨k, hk⟩ := by
    unfold pivot_element
    dsimp only
    rw [hp]
    rfl
  rw [hpe] at hzero
  have hallzero : ∀ t, (invert_upto a k).pivoted t = false →
      (invert_upto a k).row t ⟨k, hk⟩ = 0 := by
    intro t hft
    have hle := hmax t hft
    rw [hzero] at hle
    simpa using hle
  set s := invert_upto a k with hs
  have hFai : ∀ t0, (f * a) t0 ⟨k, hk⟩ = s.row t0 ⟨k, hk⟩ := by
    intro t0
    rw [hrow, Matrix.mul_apply, Matrix.mul_apply]
    refine Finset.sum_congr rfl fun r _ => ?_
    congr 1
    simp only [gj_target, Matrix.of_apply]
    rw [if_neg (lt_irrefl k)]
  set u : Fin n → ℚ := fun j =>
    (if j = (⟨k, hk⟩ : Fin n) then 1 else 0) -
      (if (j : ℕ) < k then s.row (s.trans_perm j) ⟨k, hk⟩ else 0)
    with hu
  have hMu : (f * a).mulVec u = 0 := by
    funext t0
    rw [Matrix.mulVec]
    show (∑ j, (f * a) t0 j * u j) = 0
    have hsplit : (∑ j, (f * a) t0 j * u j) =
        (∑ j, (f * a) t0 j * (if j = (⟨k, hk⟩ : Fin n) then 1 else 0)) -
          ∑ j : Fin n, (f * a) t0 j *
            (if (j : ℕ) < k then s.row (s.trans_perm j) ⟨k, hk⟩ else 0) := by
      rw [← Finset.sum_sub_distrib]
      refine Finset.sum_congr rfl fun j _ => ?_
      simp only [hu]
      ring
    rw [hsplit, mul_basis_col (f * a) t0 ⟨k, hk⟩ _ (fun r => rfl), hFai t0]
    have hsum2 : (∑ j : Fin n, (f * a) t0 j *
        (if (j : ℕ) < k then s.row (s.trans_perm j) ⟨k, hk⟩ else 0)) =
        ∑ j : Fin n, (if (j : ℕ) < k then
          (if t0 = s.trans_perm j then 1 else 0) * s.row (s.trans_perm j) ⟨k, hk⟩
          else 0) := by
      refine Finset.sum_congr rfl fun j _ => ?_
      by_cases hjk : (j : ℕ) < k
      · rw [if_pos hjk, if_pos hjk, hcols j hjk t0]
      · rw [if_neg hjk, if_neg hjk, mul_zero]
    rw [hsum2]
    by_cases hpvt : s.pivoted t0 = true
    · obtain ⟨j0, hj0, hje⟩ := (hbk t0).mp hpvt
      rw [Finset.sum_eq_single j0]
      · rw [if_pos hj0, hje, if_pos rfl, one_mul]
        ring
      · intro j _ hjne
        by_cases hjk : (j : ℕ) < k
        · rw [if_pos hjk]
          have hne : s.trans_perm j ≠ t0 := by
            intro he
            exact hjne (hinj j j0 hjk hj0 (by rw [he, hje]))
          rw [if_neg (fun hcontra => hne hcontra.symm), zero_mul]
        · rw [if_neg hjk]
      · intro habs
        exact absurd (Finset.mem_univ j0) habs
    · have hfr : s.pivoted t0 = false := by
        cases h : s.pivoted t0
        · rfl
        · exact absurd h hpvt
      rw [hallzero t0 hfr]
      rw [Finset.sum_eq_zero]
      · ring
      · intro j _
        by_cases hjk : (j : ℕ) < k
        · rw [if_pos hjk]
          have hne : t0 ≠ s.trans_perm j := by
            intro he
            have hcontra : s.pivoted t0 = true := (hbk t0).mpr ⟨j, hjk, he.symm⟩
            rw [hfr] at hcontra
            exact Bool.noConfusion hcontra
          rw [if_neg hne, zero_mul]
        · rw [if_neg hjk]
  have hMunit : IsUnit (f * a) := hfu.mul ha
  have hu0 : u = 0 := by
    have h1 : (↑hMunit.unit⁻¹ : Matrix (Fin n) (Fin n) ℚ).mulVec ((f * a).mulVec u) =
        (↑hMunit.unit⁻¹ : Matrix (Fin n) (Fin n) ℚ).mulVec 0 := by rw [hMu]
    rw [Matrix.mulVec_mulVec] at h1
    have h2 : (↑hMunit.unit⁻¹ : Matrix (Fin n) (Fin n) ℚ) * (f * a) = 1 := by
      have h3 := hMunit.unit.inv_mul
      rwa [IsUnit.unit_spec] at h3
    rw [h2, Matrix.one_mulVec, Matrix.mulVec_zero] at h1
    exact h1
  have hui : u ⟨k, hk⟩ = 1 := by
    simp only [hu]
    rw [if_neg (lt_irrefl k)]
    simp
  rw [hu0] at hui
  simp at hui

theorem invert_upto_status_of_isUnit {n : ℕ} (a : Matrix (Fin n) (Fin n) ℚ)
    (ha : IsUnit a) : ∀ k, k ≤ n → (invert_upto a k).status = true := by
  intro k
  induction k with
  | zero => intro _; rfl
  | succ k ih =>
    intro hk1
    have hk : k < n := by omega
    rw [invert_upto_status_succ a k hk]
    exact ⟨pivot_element_ne_zero_of_isUnit a ha k hk (ih (by omega)), ih (by omega)⟩

theorem gj_zero_row_invariant {n : ℕ} (a : Matrix (Fin n) (Fin n) ℚ) (t : Fin n)
    (hrow0 : ∀ j, a t j = 0) :
    ∀ k, k ≤ n → (invert_upto a k).status = true →
      (invert_upto a k).pivoted t = false ∧ ∀ j, (invert_upto a k).row t j = 0 := by
  intro k
  induction k with
  | zero =>
    intro _ _
    exact ⟨rfl, hrow0⟩
  | succ k ih =>
    intro hk1 hst
    have hk : k < n := by omega
    have hstk : (invert_upto a k).status = true :=
      ((invert_upto_status_succ a k hk).mp hst).2
    have hpek : pivot_element a ⟨k, hk⟩ ≠ 0 :=
      ((invert_upto_status_succ a k hk).mp hst).1
    obtain ⟨hfr, hzero⟩ := ih (by omega) hstk
    obtain ⟨hbk, hinj, hpm, hF⟩ := gj_inv_all a k (le_of_lt hk)
    obtain ⟨p, hp⟩ := choose_pivot_isSome
      (fun t0 => (invert_upto a k).row t0 ⟨k, hk⟩) (invert_upto a k).pivoted
      (gj_exists_fresh hk _ hbk)
    have hpe : pivot_element a ⟨k, hk⟩ = (invert_upto a k).row p ⟨k, hk⟩ := by
      unfold pivot_element
      dsimp only
      rw [hp]
      rfl
    have hd : (invert_upto a k).row p ⟨k, hk⟩ ≠ 0 := by
      rw [← hpe]
      exact hpek
    have htne : t ≠ p := by
      intro he
      rw [← he] at hd
      exact hd (hzero ⟨k, hk⟩)
    rw [invert_upto_succ a k hk, invert_step_eq _ _ p hp]
    constructor
    · dsimp only
      rw [Function.update_noteq htne]
      exact hfr
    · intro j
      dsimp only
      rw [apply_gauss_jordan_transform_fst _ _ _ _ hd]
      simp only [Matrix.of_apply]
      by_cases hj : j = ⟨k, hk⟩
      · rw [if_pos hj]
        simp only [gj_coeff, if_neg htne]
        rw [hzero ⟨k, hk⟩]
        norm_num
      · rw [if_neg hj, gj_elim_mul]
        simp only [Matrix.of_apply]
        rw [hzero j]
        simp only [gj_update, gj_coeff, if_neg htne]
        rw [hzero ⟨k, hk⟩]
        norm_num

/-- C3: invert_block reports failure exactly when some Gauss-Jordan step
examines a pivot element that is exactly zero, that is when the
column-pivoting choice finds no nonzero candidate among the remaining
lanes at that step; and for every matrix with an all-zero row among the
problem-size lanes the routine returns false, never success with a wrong
inverse. -/
theorem invert_block_failure_iff_zero_pivot {n : ℕ} (a : Matrix (Fin n) (Fin n) ℚ) :
    ((invert_block a).status = false ↔ ∃ i : Fin n, pivot_element a i = 0) ∧
      (∀ t : Fin n, (∀ j, a t j = 0) → (invert_block a).status = false) := by
  have hiff := invert_upto_status_iff a n le_rfl
  constructor
  · rw [invert_block_eq_upto]
    constructor
    · intro hfalse
      by_contra hnone
      push_neg at hnone
      have : (invert_upto a n).status = true :=
        hiff.mpr fun i _ => hnone i
      rw [hfalse] at this
      exact Bool.noConfusion this
    · intro ⟨i, hi⟩
      cases hst : (invert_upto a n).status
      · rfl
      · exact absurd hi (hiff.mp hst i i.isLt)
  · intro t hrow0
    cases hst : (invert_block a).status
    · rfl
    · exfalso
      rw [invert_block_eq_upto] at hst
      obtain ⟨hfr, _⟩ := gj_zero_row_invariant a t hrow0 n le_rfl hst
      obtain ⟨hbk, hinj, _, _⟩ := gj_inv_all a n le_rfl
      have htpinj : Function.Injective (invert_upto a n).trans_perm := by
        intro j j' he
        exact hinj j j' j.isLt j'.isLt he
      have htpsurj := Finite.surjective_of_injective htpinj
      obtain ⟨j, hj⟩ := htpsurj t
      have : (invert_upto a n).pivoted t = true := (hbk t).mpr ⟨j, j.isLt, hj⟩
      rw [hfr] at this
      exact Bool.noConfusion this

/-- C3 witness: the two-by-two matrix whose second row is zero makes
invert_block fail, and its zero pivot is exhibited. -/
theorem invert_block_failure_iff_zero_pivot_witness :
    ((invert_block !![(1 : ℚ), 2; 0, 0]).status = false ↔
        ∃ i : Fin 2, pivot_element !![(1 : ℚ), 2; 0, 0] i = 0) ∧
      (∀ t : Fin 2, (∀ j, !![(1 : ℚ), 2; 0, 0] t j = 0) →
        (invert_block !![(1 : ℚ), 2; 0, 0]).status = false) :=
  invert_block_failure_iff_zero_pivot !![(1 : ℚ), 2; 0, 0]

/-- C2: for every non-singular matrix handed row-per-lane to invert_block,
the routine returns true, the returned permutation vectors invert each
other, and the permutation law holds: conjugating the returned matrix with
the transposed permutation matrix of the perm vector on the row side and on
the column side yields the exact two-sided inverse of the input, stated
over exact arithmetic. -/
theorem invert_block_nonsingular_correct {n : ℕ} (a : Matrix (Fin n) (Fin n) ℚ)
    (ha : IsUnit a) :
    (invert_block a).status = true ∧
      (∀ j, (invert_block a).perm ((invert_block a).trans_perm j) = j) ∧
      (∀ j, (invert_block a).trans_perm ((invert_block a).perm j) = j) ∧
      ((perm_matrix (invert_block a).perm).transpose * (invert_block a).row *
          (perm_matrix (invert_block a).perm).transpose) * a = 1 ∧
      a * ((perm_matrix (invert_block a).perm).transpose * (invert_block a).row *
          (perm_matrix (invert_block a).perm).transpose) = 1 := by
  have hstat : (invert_block a).status = true := by
    rw [invert_block_eq_upto]
    exact invert_upto_status_of_isUnit a ha n le_rfl
  obtain ⟨hbk, hinj, hpm, hF⟩ := gj_inv_all a n le_rfl
  rw [invert_block_eq_upto] at hstat ⊢
  obtain ⟨f, hfu, hrow, hcols, hid⟩ := hF hstat
  set s := invert_upto a n with hs
  have htpinj : Function.Injective s.trans_perm := by
    intro j j' he
    exact hinj j j' j.isLt j'.isLt he
  have htpsurj := Finite.surjective_of_injective htpinj
  have hperm_all : ∀ j, s.perm (s.trans_perm j) = j := fun j => hpm j j.isLt
  have htp_perm : ∀ t, s.trans_perm (s.perm t) = t := by
    intro t
    obtain ⟨j, hj⟩ := htpsurj t
    rw [← hj, hperm_all j]
  have hQ : perm_matrix s.perm = Matrix.of fun t j => if t = s.trans_perm j then 1 else 0 := by
    ext t j
    simp only [perm_matrix, Matrix.of_apply]
    have hcond : s.perm t = j ↔ t = s.trans_perm j := by
      constructor
      · intro he
        rw [← he, htp_perm t]
      · intro he
        rw [he, hperm_all j]
    by_cases hc : s.perm t = j
    · rw [if_pos hc, if_pos (hcond.mp hc)]
    · rw [if_neg hc, if_neg fun hcc => hc (hcond.mpr hcc)]
  set q : Matrix (Fin n) (Fin n) ℚ :=
    Matrix.of fun t j => if t = s.trans_perm j then 1 else 0 with hqdef
  have hfa : f * a = q := by
    ext t j
    rw [hcols j j.isLt t]
    rfl
  have hU : gj_target a s.trans_perm n = q := by
    ext t j
    simp only [gj_target, Matrix.of_apply, hqdef]
    rw [if_pos j.isLt]
  have hX : s.row = f * q := by
    rw [hrow, hU]
  have hQQt : q * q.transpose = 1 := by
    ext t r
    rw [Matrix.mul_apply]
    obtain ⟨jt, hjt⟩ := htpsurj t
    rw [Finset.sum_eq_single jt]
    · simp only [hqdef, Matrix.of_apply, Matrix.transpose_apply, Matrix.one_apply]
      rw [if_pos hjt.symm, one_mul, hjt]
      by_cases hc : r = t
      · rw [if_pos hc, if_pos hc.symm]
      · rw [if_neg hc, if_neg fun hcc => hc hcc.symm]
    · intro j _ hjne
      simp only [hqdef, Matrix.of_apply, Matrix.transpose_apply]
      have : t ≠ s.trans_perm j := by
        intro he
        exact hjne (htpinj (by rw [← he, hjt]))
      rw [if_neg this, zero_mul]
    · intro habs
      exact absurd (Finset.mem_univ jt) habs
  have hQtQ : q.transpose * q = 1 := Matrix.mul_eq_one_comm.mp hQQt
  have hY : (perm_matrix s.perm).transpose * s.row * (perm_matrix s.perm).transpose = q.transpose * f := by
    rw [hQ, hX, ← Matrix.mul_assoc,
      Matrix.mul_assoc (q.transpose * f) q q.transpose, hQQt, Matrix.mul_one]
  have hleft : (q.transpose * f) * a = 1 := by
    rw [Matrix.mul_assoc, hfa, hQtQ]
  refine ⟨hstat, hperm_all, htp_perm, ?_, ?_⟩
  · rw [hY]
    exact hleft
  · rw [hY]
    exact Matrix.mul_eq_one_comm.mp hleft

/-- C2 witness: the antidiagonal two-by-two scenario block is non-singular,
invert_block succeeds on it and the permutation law holds. -/
theorem invert_block_nonsingular_correct_witness :
    IsUnit !![(0 : ℚ), 1; 1, 0] ∧
      ((invert_block !![(0 : ℚ), 1; 1, 0]).status = true ∧
        (∀ j, (invert_block !![(0 : ℚ), 1; 1, 0]).perm
          ((invert_block !![(0 : ℚ), 1; 1, 0]).trans_perm j) = j) ∧
        (∀ j, (invert_block !![(0 : ℚ), 1; 1, 0]).trans_perm
          ((invert_block !![(0 : ℚ), 1; 1, 0]).perm j) = j) ∧
        ((perm_matrix (invert_block !![(0 : ℚ), 1; 1, 0]).perm).transpose *
            (invert_block !![(0 : ℚ), 1; 1, 0]).row *
            (perm_matrix (invert_block !![(0 : ℚ), 1; 1, 0]).perm).transpose) *
          !![(0 : ℚ), 1; 1, 0] = 1 ∧
        !![(0 : ℚ), 1; 1, 0] *
          ((perm_matrix (invert_block !![(0 : ℚ), 1; 1, 0]).perm).transpose *
            (invert_block !![(0 : ℚ), 1; 1, 0]).row *
            (perm_matrix (invert_block !![(0 : ℚ), 1; 1, 0]).perm).transpose) = 1) := by
  have hmul : !![(0 : ℚ), 1; 1, 0] * !![(0 : ℚ), 1; 1, 0] = 1 := by
    ext i j
    fin_cases i <;> fin_cases j <;>
      simp [Matrix.mul_apply, Fin.sum_univ_two, Matrix.one_apply]
  have hunit : IsUnit !![(0 : ℚ), 1; 1, 0] :=
    ⟨⟨!![(0 : ℚ), 1; 1, 0], !![(0 : ℚ), 1; 1, 0], hmul, hmul⟩, rfl⟩
  exact ⟨hunit, invert_block_nonsingular_correct !![(0 : ℚ), 1; 1, 0] hunit⟩

/-! ## Sample-select: search-tree layout -/

theorem ffs_zero : ffs 0 = 0 := by
  simp [ffs]

theorem ffs_odd (j : ℕ) : ffs (2 * j + 1) = 1 := by
  have hm : (2 * j + 1) % 2 = 1 := by omega
  rw [ffs]
  simp [hm]

theorem ffs_even (m : ℕ) (hm : 0 < m) : ffs (2 * m) = ffs m + 1 := by
  obtain ⟨m2, rfl⟩ := Nat.exists_eq_succ_of_ne_zero (Nat.pos_iff_ne_zero.mp hm)
  have h2 : 2 * (m2 + 1) = (2 * m2 + 1) + 1 := by ring
  rw [h2, ffs]
  have hmod : (2 * m2 + 1 + 1) % 2 = 0 := by omega
  simp only [hmod]
  norm_num
  congr 1
  omega

theorem ffs_odd_mul_pow (j m : ℕ) : ffs ((2 * j + 1) * 2 ^ m) = m + 1 := by
  induction m with
  | zero => simpa using ffs_odd j
  | succ m ih =>
    have h1 : (2 * j + 1) * 2 ^ (m + 1) = 2 * ((2 * j + 1) * 2 ^ m) := by ring
    rw [h1, ffs_even _ (by positivity), ih]

theorem odd_mul_pow_shiftRight (j m : ℕ) : ((2 * j + 1) * 2 ^ m) >>> (m + 1) = j := by
  rw [Nat.shiftRight_eq_div_pow, pow_succ, ← Nat.div_div_eq_div_mul,
    Nat.mul_div_cancel _ (Nat.two_pow_pos m)]
  omega

theorem exists_odd_mul_pow : ∀ idx : ℕ, 0 < idx → ∃ m j, idx = (2 * j + 1) * 2 ^ m := by
  intro idx
  induction idx using Nat.strong_induction_on with
  | _ idx ih =>
    intro hpos
    rcases Nat.even_or_odd idx with he | ho
    · obtain ⟨half, hhalf⟩ := he
      have hhalf2 : idx = 2 * half := by omega
      have hhpos : 0 < half := by omega
      obtain ⟨m, j, hmj⟩ := ih half (by omega) hhpos
      exact ⟨m + 1, j, by rw [hhalf2, hmj]; ring⟩
    · obtain ⟨half, hhalf⟩ := ho
      exact ⟨0, half, by omega⟩

theorem searchtree_pos_formula (h l j : ℕ) (hl : l < h) (hj : j < 2 ^ l) :
    searchtree_pos h ((2 * j + 1) * 2 ^ (h - 1 - l)) = j + 2 ^ l - 1 := by
  unfold searchtree_pos
  have hexp : h - ((h - 1 - l) + 1) = l := by omega
  rw [ffs_odd_mul_pow, odd_mul_pow_shiftRight, hexp]

theorem searchtree_pos_lt (h l j : ℕ) (hl : l < h) (hj : j < 2 ^ l) :
    j + 2 ^ l - 1 < 2 ^ h - 1 := by
  have h1 : 2 ^ (l + 1) ≤ 2 ^ h := Nat.pow_le_pow_right (by norm_num) (by omega)
  have h2 : 2 ^ (l + 1) = 2 ^ l + 2 ^ l := by rw [pow_succ]; ring
  have h3 : 0 < 2 ^ l := Nat.two_pow_pos l
  omega

theorem level_index_unique (l j l2 j2 : ℕ) (hj : j < 2 ^ l) (hj2 : j2 < 2 ^ l2)
    (he : j + 2 ^ l - 1 = j2 + 2 ^ l2 - 1) : l = l2 ∧ j = j2 := by
  have h3 : 0 < 2 ^ l := Nat.two_pow_pos l
  have h4 : 0 < 2 ^ l2 := Nat.two_pow_pos l2
  have he2 : j + 2 ^ l = j2 + 2 ^ l2 := by omega
  have hll : l = l2 := by
    rcases Nat.lt_trichotomy l l2 with hlt | heq | hgt
    · exfalso
      have hle : 2 ^ l * 2 ≤ 2 ^ l2 := by
        have hp := Nat.pow_le_pow_right (show 1 ≤ 2 by norm_num)
          (show l + 1 ≤ l2 by omega)
        rwa [pow_succ] at hp
      omega
    · exact heq
    · exfalso
      have hle : 2 ^ l2 * 2 ≤ 2 ^ l := by
        have hp := Nat.pow_le_pow_right (show 1 ≤ 2 by norm_num)
          (show l2 + 1 ≤ l by omega)
        rwa [pow_succ] at hp
      omega
  refine ⟨hll, ?_⟩
  subst hll
  omega

theorem odd_mul_pow_lt (h l j : ℕ) (hl : l < h) (hj : j < 2 ^ l) :
    (2 * j + 1) * 2 ^ (h - 1 - l) < 2 ^ h := by
  have h1 : 2 * j + 1 < 2 ^ (l + 1) := by
    rw [pow_succ]
    omega
  calc (2 * j + 1) * 2 ^ (h - 1 - l) < 2 ^ (l + 1) * 2 ^ (h - 1 - l) :=
        (Nat.mul_lt_mul_right (Nat.two_pow_pos _)).mpr h1
    _ ≤ 2 ^ h := by
        rw [← pow_add]
        exact Nat.pow_le_pow_right (by norm_num) (by omega)

/-! ## Sample-select: characterizing the built tree array -/

theorem getD_set_self (arr : List ℚ) (v : ℚ) (qq : ℕ) (hq : qq < arr.length) :
    (arr.set qq v).getD qq 0 = v := by
  rw [List.getD_eq_getElem _ _ (by simpa using hq)]
  simp [List.getElem_set]

theorem getD_set_ne (arr : List ℚ) (v : ℚ) (pp qq : ℕ) (hne : pp ≠ qq) :
    (arr.set pp v).getD qq 0 = arr.getD qq 0 := by
  by_cases hq : qq < arr.length
  · rw [List.getD_eq_getElem _ _ (by simpa using hq), List.getD_eq_getElem _ _ hq]
    simp [List.getElem_set, hne]
  · rw [List.getD_eq_default _ _ (by simpa using Nat.le_of_not_lt hq),
      List.getD_eq_default _ _ (Nat.le_of_not_lt hq)]

theorem foldl_setc_length (c : ℕ → Prop) [DecidablePred c] (pos : ℕ → ℕ) (val : ℕ → ℚ) :
    ∀ (lst : List ℕ) (arr : List ℚ),
      (lst.foldl (fun a x => if c x then a.set (pos x) (val x) else a) arr).length =
        arr.length := by
  intro lst
  induction lst with
  | nil => intro arr; rfl
  | cons y rest ih =>
    intro arr
    rw [List.foldl_cons]
    rw [ih]
    by_cases hc : c y
    · rw [if_pos hc, List.length_set]
    · rw [if_neg hc]

theorem foldl_setc_getD_of_not_written (c : ℕ → Prop) [DecidablePred c] (pos : ℕ → ℕ) (val : ℕ → ℚ) :
    ∀ (lst : List ℕ) (arr : List ℚ) (qq : ℕ),
      (∀ x ∈ lst, c x → pos x ≠ qq) →
      (lst.foldl (fun a x => if c x then a.set (pos x) (val x) else a) arr).getD qq 0 =
        arr.getD qq 0 := by
  intro lst
  induction lst with
  | nil => intro arr qq _; rfl
  | cons y rest ih =>
    intro arr qq hnw
    rw [List.foldl_cons]
    rw [ih _ qq fun x hx hcx => hnw x (List.mem_cons_of_mem _ hx) hcx]
    by_cases hc : c y
    · rw [if_pos hc, getD_set_ne _ _ _ _ (hnw y (List.mem_cons_self y rest) hc)]
    · rw [if_neg hc]

theorem foldl_setc_getD_written (c : ℕ → Prop) [DecidablePred c] (pos : ℕ → ℕ) (val : ℕ → ℚ) :
    ∀ (lst : List ℕ) (arr : List ℚ) (qq x0 : ℕ),
      x0 ∈ lst → c x0 → pos x0 = qq →
      (∀ x ∈ lst, c x → pos x = qq → x = x0) → qq < arr.length →
      (lst.foldl (fun a x => if c x then a.set (pos x) (val x) else a) arr).getD qq 0 =
        val x0 := by
  intro lst
  induction lst with
  | nil =>
    intro arr qq x0 hmem
    exact absurd hmem (List.not_mem_nil x0)
  | cons y rest ih =>
    intro arr qq x0 hmem hc0 hp0 huniq hlen
    rw [List.foldl_cons]
    by_cases hy0 : y = x0
    · by_cases hrest : x0 ∈ rest
      · exact ih _ qq x0 hrest hc0 hp0
          (fun x hx hcx hpx => huniq x (List.mem_cons_of_mem _ hx) hcx hpx)
          (by
            by_cases hcy : c y
            · rw [if_pos hcy, List.length_set]
              exact hlen
            · rw [if_neg hcy]
              exact hlen)
      · have hnw : ∀ x ∈ rest, c x → pos x ≠ qq := by
          intro x hx hcx hpx
          rw [huniq x (List.mem_cons_of_mem _ hx) hcx hpx] at hx
          exact hrest hx
        rw [foldl_setc_getD_of_not_written c pos val rest _ qq hnw]
        rw [hy0, if_pos hc0, hp0]
        exact getD_set_self arr _ qq hlen
    · have hrest : x0 ∈ rest := by
        rcases List.mem_cons.mp hmem with he | hr
        · exact absurd he.symm hy0
        · exact hr
      have hlen2 : qq < (if c y then arr.set (pos y) (val y) else arr).length := by
        by_cases hcy : c y
        · rw [if_pos hcy, List.length_set]
          exact hlen
        · rw [if_neg hcy]
          exact hlen
      exact ih _ qq x0 hrest hc0 hp0
        (fun x hx hcx hpx => huniq x (List.mem_cons_of_mem _ hx) hcx hpx) hlen2

theorem foldl_set_length (pos : ℕ → ℕ) (val : ℕ → ℚ) :
    ∀ (lst : List ℕ) (arr : List ℚ),
      (lst.foldl (fun a x => a.set (pos x) (val x)) arr).length = arr.length := by
  intro lst
  induction lst with
  | nil => intro arr; rfl
  | cons y rest ih =>
    intro arr
    rw [List.foldl_cons, ih, List.length_set]

theorem foldl_set_getD_of_not_written (pos : ℕ → ℕ) (val : ℕ → ℚ) :
    ∀ (lst : List ℕ) (arr : List ℚ) (qq : ℕ),
      (∀ x ∈ lst, pos x ≠ qq) →
      (lst.foldl (fun a x => a.set (pos x) (val x)) arr).getD qq 0 = arr.getD qq 0 := by
  intro lst
  induction lst with
  | nil => intro arr qq _; rfl
  | cons y rest ih =>
    intro arr qq hnw
    rw [List.foldl_cons, ih _ qq fun x hx => hnw x (List.mem_cons_of_mem _ hx),
      getD_set_ne _ _ _ _ (hnw y (List.mem_cons_self y rest))]

theorem foldl_set_getD_written (pos : ℕ → ℕ) (val : ℕ → ℚ) :
    ∀ (lst : List ℕ) (arr : List ℚ) (qq x0 : ℕ),
      x0 ∈ lst → pos x0 = qq →
      (∀ x ∈ lst, pos x = qq → x = x0) → qq < arr.length →
      (lst.foldl (fun a x => a.set (pos x) (val x)) arr).getD qq 0 = val x0 := by
  intro lst
  induction lst with
  | nil =>
    intro arr qq x0 hmem
    exact absurd hmem (List.not_mem_nil x0)
  | cons y rest ih =>
    intro arr qq x0 hmem hp0 huniq hlen
    rw [List.foldl_cons]
    by_cases hy0 : y = x0
    · by_cases hrest : x0 ∈ rest
      · exact ih _ qq x0 hrest hp0
          (fun x hx hpx => huniq x (List.mem_cons_of_mem _ hx) hpx)
          (by rw [List.length_set]; exact hlen)
      · have hnw : ∀ x ∈ rest, pos x ≠ qq := by
          intro x hx hpx
          rw [huniq x (List.mem_cons_of_mem _ hx) hpx] at hx
          exact hrest hx
        rw [foldl_set_getD_of_not_written pos val rest _ qq hnw, hy0, hp0]
        exact getD_set_self arr _ qq hlen
    · have hrest : x0 ∈ rest := by
        rcases List.mem_cons.mp hmem with he | hr
        · exact absurd he.symm hy0
        · exact hr
      exact ih _ qq x0 hrest hp0
        (fun x hx hpx => huniq x (List.mem_cons_of_mem _ hx) hpx)
        (by rw [List.length_set]; exact hlen)

theorem build_searchtree_length (h k : ℕ) (samples : List ℚ) :
    (build_searchtree h k samples).length = 2 * 2 ^ h - 1 := by
  unfold build_searchtree
  rw [foldl_set_length, foldl_setc_length, List.length_replicate]

theorem build_searchtree_leaf (h k : ℕ) (samples : List ℚ) (b : ℕ) (hb : b < 2 ^ h) :
    (build_searchtree h k samples).getD (b + (2 ^ h - 1)) 0 =
      (samples.mergeSort fun x y => decide (x ≤ y)).getD (b * k) 0 := by
  unfold build_searchtree
  rw [foldl_set_getD_written (fun idx => idx + (2 ^ h - 1))
    (fun idx => (samples.mergeSort fun x y => decide (x ≤ y)).getD (idx * k) 0)
    (List.range (2 ^ h)) _ (b + (2 ^ h - 1)) b (List.mem_range.mpr hb) rfl
    (fun x _ hpx => by
      have hq : x + (2 ^ h - 1) = b + (2 ^ h - 1) := hpx
      omega)
    (by
      rw [foldl_setc_length, List.length_replicate]
      have := Nat.two_pow_pos h
      omega)]

theorem build_searchtree_inner (h k : ℕ) (samples : List ℚ) (l j : ℕ)
    (hl : l < h) (hj : j < 2 ^ l) :
    (build_searchtree h k samples).getD (j + 2 ^ l - 1) 0 =
      (samples.mergeSort fun x y => decide (x ≤ y)).getD
        (((2 * j + 1) * 2 ^ (h - 1 - l)) * k) 0 := by
  unfold build_searchtree
  have hposlt := searchtree_pos_lt h l j hl hj
  have h2p := Nat.two_pow_pos l
  rw [foldl_set_getD_of_not_written _ _ _ _ _
    (fun x hx => show x + (2 ^ h - 1) ≠ j + 2 ^ l - 1 by omega)]
  rw [foldl_setc_getD_written (fun idx => 0 < idx) (fun idx => searchtree_pos h idx)
    (fun idx => (samples.mergeSort fun x y => decide (x ≤ y)).getD (idx * k) 0)
    (List.range (2 ^ h)) _ (j + 2 ^ l - 1) ((2 * j + 1) * 2 ^ (h - 1 - l))
    (List.mem_range.mpr (odd_mul_pow_lt h l j hl hj)) (by positivity)
    (searchtree_pos_formula h l j hl hj)
    (fun x hx hcx hpx => by
      obtain ⟨m, j2, hmj⟩ := exists_odd_mul_pow x hcx
      have hxlt : x < 2 ^ h := List.mem_range.mp hx
      have hmlt : m < h := by
        by_contra hge
        push_neg at hge
        have : 2 ^ h ≤ x := by
          rw [hmj]
          calc 2 ^ h ≤ 2 ^ m := Nat.pow_le_pow_right (by norm_num) hge
            _ ≤ (2 * j2 + 1) * 2 ^ m := Nat.le_mul_of_pos_left _ (by omega)
        omega
      have hj2lt : j2 < 2 ^ (h - 1 - m) := by
        by_contra hge
        push_neg at hge
        have h1 : 2 ^ (h - 1 - m) * 2 ^ (m + 1) ≤ x := by
          rw [hmj]
          have : 2 ^ (h - 1 - m) * 2 ≤ 2 * j2 + 1 := by omega
          calc 2 ^ (h - 1 - m) * 2 ^ (m + 1) = 2 ^ (h - 1 - m) * 2 * 2 ^ m := by ring
            _ ≤ (2 * j2 + 1) * 2 ^ m := mul_le_mul_right' this (2 ^ m)
        rw [← pow_add] at h1
        have h2 : h ≤ h - 1 - m + (m + 1) := by omega
        have h3 : 2 ^ h ≤ 2 ^ (h - 1 - m + (m + 1)) :=
          Nat.pow_le_pow_right (by norm_num) h2
        omega
      have hlm : h - 1 - (h - 1 - m) = m := by omega
      have hpos2 : searchtree_pos h x = j2 + 2 ^ (h - 1 - m) - 1 := by
        have := searchtree_pos_formula h (h - 1 - m) j2 (by omega) hj2lt
        rw [hlm] at this
        rw [hmj]
        exact this
      have hpx2 : searchtree_pos h x = j + 2 ^ l - 1 := hpx
      rw [hpos2] at hpx2
      obtain ⟨hle, hje⟩ := level_index_unique (h - 1 - m) j2 l j hj2lt hj hpx2
      rw [hmj, hje]
      have hm2 : h - 1 - l = m := by omega
      rw [hm2])
    (by
      rw [List.length_replicate]
      omega)]

/-! ## Sample-select: the classification walk counts splitters -/

theorem mergeSort_sorted_le {α : Type} [LinearOrder α] (L : List α) :
    List.Sorted (fun x y : α => x ≤ y) (L.mergeSort fun x y => decide (x ≤ y)) := by
  have hp : List.Pairwise (fun a b : α => (decide (a ≤ b)) = true)
      (L.mergeSort fun a b => decide (a ≤ b)) :=
    List.sorted_mergeSort
      (fun a b c hab hbc => by
        simp only [decide_eq_true_eq] at hab hbc ⊢
        exact le_trans hab hbc)
      (fun a b => by
        simp only [Bool.or_eq_true, decide_eq_true_eq]
        exact le_total a b) L
  exact hp.imp (fun hab => by simpa using hab)

theorem splitter_mono (h k : ℕ) (samples : List ℚ) (hk : 1 ≤ k)
    (hlen : samples.length = 2 ^ h * k) (i i' : ℕ) (hii : i ≤ i') (hi' : i' < 2 ^ h) :
    splitter k samples i ≤ splitter k samples i' := by
  unfold splitter
  have hlen' : (samples.mergeSort fun a b => decide (a ≤ b)).length = 2 ^ h * k := by
    rw [List.length_mergeSort, hlen]
  have hik : i * k ≤ i' * k := mul_le_mul_right' hii k
  have hi'k : i' * k < 2 ^ h * k := by
    have h1 : i' * k + k ≤ 2 ^ h * k := by
      have : (i' + 1) * k ≤ 2 ^ h * k := mul_le_mul_right' hi' k
      calc i' * k + k = (i' + 1) * k := by ring
        _ ≤ 2 ^ h * k := this
    omega
  rcases eq_or_lt_of_le hik with heq | hlt
  · rw [heq]
  · rw [List.getD_eq_getElem _ _ (by omega : i * k < (samples.mergeSort
        fun a b => decide (a ≤ b)).length),
      List.getD_eq_getElem _ _ (by omega : i' * k < (samples.mergeSort
        fun a b => decide (a ≤ b)).length)]
    exact List.pairwise_iff_getElem.mp (mergeSort_sorted_le samples) _ _ _ _ hlt

theorem splitter_count_lt (h k : ℕ) (samples : List ℚ) (el : ℚ) :
    splitter_count h k samples el < 2 ^ h := by
  unfold splitter_count
  have h1 := Finset.card_filter_le (Finset.Ico 1 (2 ^ h))
    fun i => splitter k samples i ≤ el
  rw [Nat.card_Ico] at h1
  have := Nat.two_pow_pos h
  omega

theorem splitter_count_mono (h k : ℕ) (samples : List ℚ) (q q' : ℚ) (hq : q ≤ q') :
    splitter_count h k samples q ≤ splitter_count h k samples q' := by
  unfold splitter_count
  apply Finset.card_le_card
  intro i hi
  rw [Finset.mem_filter] at hi ⊢
  exact ⟨hi.1, le_trans hi.2 hq⟩

theorem count_split_left (f : ℕ → ℚ) (el : ℚ) (A M B : ℕ) (hAM : A + 1 ≤ M) (hMB : M ≤ B)
    (hright : ∀ i, M ≤ i → i < B → ¬ f i ≤ el) :
    ((Finset.Ico (A + 1) B).filter fun i => f i ≤ el).card =
      ((Finset.Ico (A + 1) M).filter fun i => f i ≤ el).card := by
  rw [← Finset.Ico_union_Ico_eq_Ico hAM hMB, Finset.filter_union,
    Finset.card_union_of_disjoint
      (Finset.disjoint_filter_filter (Finset.Ico_disjoint_Ico_consecutive _ _ _))]
  have h0 : ((Finset.Ico M B).filter fun i => f i ≤ el) = ∅ := by
    apply Finset.filter_eq_empty_iff.mpr
    intro i hi
    rw [Finset.mem_Ico] at hi
    exact hright i hi.1 hi.2
  rw [h0, Finset.card_empty, add_zero]

theorem count_split_right (f : ℕ → ℚ) (el : ℚ) (A M B : ℕ) (hAM : A ≤ M) (hMB : M + 1 ≤ B)
    (hleft : ∀ i, A + 1 ≤ i → i ≤ M → f i ≤ el) :
    ((Finset.Ico (A + 1) B).filter fun i => f i ≤ el).card =
      (M - A) + ((Finset.Ico (M + 1) B).filter fun i => f i ≤ el).card := by
  rw [← Finset.Ico_union_Ico_eq_Ico (by omega : A + 1 ≤ M + 1) hMB, Finset.filter_union,
    Finset.card_union_of_disjoint
      (Finset.disjoint_filter_filter (Finset.Ico_disjoint_Ico_consecutive _ _ _))]
  have h0 : ((Finset.Ico (A + 1) (M + 1)).filter fun i => f i ≤ el) =
      Finset.Ico (A + 1) (M + 1) := by
    apply Finset.filter_true_of_mem
    intro i hi
    rw [Finset.mem_Ico] at hi
    exact hleft i hi.1 (by omega)
  rw [h0, Nat.card_Ico]
  omega

theorem classify_go_eq (h k : ℕ) (samples : List ℚ) (el : ℚ)
    (hmono : ∀ i i' : ℕ, i ≤ i' → i' < 2 ^ h →
      splitter k samples i ≤ splitter k samples i') :
    ∀ m, m ≤ h → ∀ j, j < 2 ^ (h - m) →
      classify_go (build_searchtree h k samples) el m (j + 2 ^ (h - m) - 1) =
        j * 2 ^ m +
          ((Finset.Ico (j * 2 ^ m + 1) ((j + 1) * 2 ^ m)).filter
            fun i => splitter k samples i ≤ el).card + (2 ^ h - 1) := by
  intro m
  induction m with
  | zero =>
    intro _ j hj
    simp only [classify_go, pow_zero, mul_one, Finset.Ico_self, Finset.filter_empty,
      Finset.card_empty, Nat.sub_zero, add_zero]
    have := Nat.two_pow_pos h
    omega
  | succ m ih =>
    intro hm j hj
    have hl : h - (m + 1) < h := by omega
    have hml : h - 1 - (h - (m + 1)) = m := by omega
    have hpl := Nat.two_pow_pos (h - (m + 1))
    have hpow : 2 ^ (h - m) = 2 * 2 ^ (h - (m + 1)) := by
      have h1 : h - m = (h - (m + 1)) + 1 := by omega
      rw [h1, pow_succ]
      ring
    have hchild : 2 * j + 1 < 2 ^ (h - m) := by omega
    have htree : (build_searchtree h k samples).getD (j + 2 ^ (h - (m + 1)) - 1) 0 =
        splitter k samples ((2 * j + 1) * 2 ^ m) := by
      have hbi := build_searchtree_inner h k samples (h - (m + 1)) j hl hj
      rw [hml] at hbi
      exact hbi
    have hstep : classify_go (build_searchtree h k samples) el (m + 1)
        (j + 2 ^ (h - (m + 1)) - 1) =
        classify_go (build_searchtree h k samples) el m
          (2 * (j + 2 ^ (h - (m + 1)) - 1) + 1 +
            if el < splitter k samples ((2 * j + 1) * 2 ^ m) then 0 else 1) := by
      conv_lhs => rw [classify_go]
      rw [htree]
    have e1 : (2 * j + 1) * 2 ^ m = 2 * j * 2 ^ m + 2 ^ m := by ring
    have e2 : j * 2 ^ (m + 1) = 2 * j * 2 ^ m := by rw [pow_succ]; ring
    have e3 : (j + 1) * 2 ^ (m + 1) = 2 * j * 2 ^ m + 2 ^ m + 2 ^ m := by
      rw [pow_succ]; ring
    have hm1 := Nat.two_pow_pos m
    have hB : (j + 1) * 2 ^ (m + 1) ≤ 2 ^ h := by
      have h1 : j + 1 ≤ 2 ^ (h - (m + 1)) := hj
      have h2 : (j + 1) * 2 ^ (m + 1) ≤ 2 ^ (h - (m + 1)) * 2 ^ (m + 1) :=
        mul_le_mul_right' h1 _
      rw [← pow_add] at h2
      have h3 : h - (m + 1) + (m + 1) = h := by omega
      rwa [h3] at h2
    have hM2h : (2 * j + 1) * 2 ^ m < 2 ^ h := by
      have h2 : (2 * j + 1) * 2 ^ m < 2 ^ (h - m) * 2 ^ m :=
        (Nat.mul_lt_mul_right (Nat.two_pow_pos m)).mpr hchild
      rw [← pow_add] at h2
      have h3 : h - m + m = h := by omega
      rwa [h3] at h2
    rw [hstep]
    by_cases hcase : el < splitter k samples ((2 * j + 1) * 2 ^ m)
    · rw [if_pos hcase]
      have hidx : 2 * (j + 2 ^ (h - (m + 1)) - 1) + 1 + 0 = 2 * j + 2 ^ (h - m) - 1 := by
        omega
      rw [hidx]
      have h2j : 2 * j < 2 ^ (h - m) := by omega
      rw [ih (by omega) (2 * j) h2j]
      have hsplit := count_split_left (splitter k samples) el (j * 2 ^ (m + 1))
        ((2 * j + 1) * 2 ^ m) ((j + 1) * 2 ^ (m + 1)) (by omega) (by omega)
        (fun i hMi hiB => by
          intro hle
          have hmo := hmono ((2 * j + 1) * 2 ^ m) i hMi (lt_of_lt_of_le hiB hB)
          exact absurd hle (not_le.mpr (lt_of_lt_of_le hcase hmo)))
      rw [hsplit, e2]
    · rw [if_neg hcase]
      have hidx : 2 * (j + 2 ^ (h - (m + 1)) - 1) + 1 + 1 =
          2 * j + 1 + 2 ^ (h - m) - 1 := by
        omega
      rw [hidx]
      rw [ih (by omega) (2 * j + 1) hchild]
      have hsplit := count_split_right (splitter k samples) el (j * 2 ^ (m + 1))
        ((2 * j + 1) * 2 ^ m) ((j + 1) * 2 ^ (m + 1)) (by omega) (by omega)
        (fun i h1i hiM => le_trans (hmono i ((2 * j + 1) * 2 ^ m) hiM hM2h)
          (not_lt.mp hcase))
      rw [hsplit]
      have e4 : (2 * j + 1 + 1) * 2 ^ m = (j + 1) * 2 ^ (m + 1) := by
        rw [pow_succ]; ring
      rw [e4]
      omega

theorem classify_eq_splitter_count (h k : ℕ) (samples : List ℚ) (el : ℚ)
    (hmono : ∀ i i' : ℕ, i ≤ i' → i' < 2 ^ h →
      splitter k samples i ≤ splitter k samples i') :
    classify h (build_searchtree h k samples) el = splitter_count h k samples el := by
  have hc := classify_go_eq h k samples el hmono h le_rfl 0
    (by simp)
  simp only [Nat.sub_self, pow_zero, zero_add, zero_mul, one_mul] at hc
  unfold classify splitter_count
  rw [hc]
  omega

theorem count_buckets_oracles_eq (h k : ℕ) (samples a : List ℚ) (hk : 1 ≤ k)
    (hlen : samples.length = 2 ^ h * k) :
    count_buckets_oracles h k samples a =
      a.map fun v => splitter_count h k samples |v| := by
  unfold count_buckets_oracles
  apply List.map_congr_left
  intro x _
  exact classify_eq_splitter_count h k samples |x| (splitter_mono h k samples hk hlen)

theorem splitter_le_of_bucket_pos (h k : ℕ) (samples : List ℚ) (el : ℚ)
    (hmono : ∀ i i' : ℕ, i ≤ i' → i' < 2 ^ h →
      splitter k samples i ≤ splitter k samples i')
    (hb : 1 ≤ splitter_count h k samples el) :
    splitter k samples (splitter_count h k samples el) ≤ el := by
  by_contra hcon
  push_neg at hcon
  have hblt := splitter_count_lt h k samples el
  have hsub : (Finset.Ico 1 (2 ^ h)).filter (fun i => splitter k samples i ≤ el) ⊆
      Finset.Ico 1 (splitter_count h k samples el) := by
    intro i hi
    simp only [Finset.mem_filter, Finset.mem_Ico] at hi
    rcases hi with ⟨⟨h1i, hi2⟩, hile⟩
    rw [Finset.mem_Ico]
    refine ⟨h1i, ?_⟩
    by_contra hbi
    push_neg at hbi
    exact absurd hile
      (not_le.mpr (lt_of_lt_of_le hcon (hmono (splitter_count h k samples el) i hbi hi2)))
  have hcard := Finset.card_le_card hsub
  rw [Nat.card_Ico] at hcard
  have hself : ((Finset.Ico 1 (2 ^ h)).filter fun i => splitter k samples i ≤ el).card =
      splitter_count h k samples el := rfl
  omega

theorem lt_splitter_succ_of_bucket (h k : ℕ) (samples : List ℚ) (el : ℚ)
    (hmono : ∀ i i' : ℕ, i ≤ i' → i' < 2 ^ h →
      splitter k samples i ≤ splitter k samples i')
    (hb : splitter_count h k samples el + 1 < 2 ^ h) :
    el < splitter k samples (splitter_count h k samples el + 1) := by
  by_contra hcon
  push_neg at hcon
  have hsub : Finset.Ico 1 (splitter_count h k samples el + 2) ⊆
      (Finset.Ico 1 (2 ^ h)).filter fun i => splitter k samples i ≤ el := by
    intro i hi
    rw [Finset.mem_Ico] at hi
    simp only [Finset.mem_filter, Finset.mem_Ico]
    refine ⟨⟨hi.1, by omega⟩, ?_⟩
    exact le_trans (hmono i (splitter_count h k samples el + 1) (by omega) hb) hcon
  have hcard := Finset.card_le_card hsub
  rw [Nat.card_Ico] at hcard
  have hself : ((Finset.Ico 1 (2 ^ h)).filter fun i => splitter k samples i ≤ el).card =
      splitter_count h k samples el := rfl
  omega

/-! ## C8: the bucket invariant of the classification -/

/-- C8: after build_searchtree has produced a search tree from the sorted
samples, count_buckets records for every input element a bucket whose leaf
splitters bound the element's magnitude: leaf(b) ≤ |e| < leaf(b+1), with
leaf 0 read as minus infinity and leaf past the last bucket read as plus
infinity. -/
theorem count_buckets_bucket_invariant (h k : ℕ) (samples a : List ℚ) (hk : 1 ≤ k)
    (hlen : samples.length = 2 ^ h * k) (i : ℕ) (hi : i < a.length) :
    searchtree_leaf_ext h k samples ((count_buckets_oracles h k samples a).getD i 0) ≤
        (((|a.getD i 0| : ℚ) : WithTop ℚ) : WithBot (WithTop ℚ)) ∧
      (((|a.getD i 0| : ℚ) : WithTop ℚ) : WithBot (WithTop ℚ)) <
        searchtree_leaf_ext h k samples
          ((count_buckets_oracles h k samples a).getD i 0 + 1) := by
  have hmono := splitter_mono h k samples hk hlen
  have horc : (count_buckets_oracles h k samples a).getD i 0 =
      splitter_count h k samples |a.getD i 0| := by
    rw [count_buckets_oracles_eq h k samples a hk hlen]
    rw [List.getD_eq_getElem _ _ (by simpa using hi), List.getElem_map,
      List.getD_eq_getElem _ _ hi]
  rw [horc]
  have hblt : splitter_count h k samples |a.getD i 0| < 2 ^ h :=
    splitter_count_lt h k samples |a.getD i 0|
  constructor
  · unfold searchtree_leaf_ext
    by_cases hb0 : splitter_count h k samples |a.getD i 0| = 0
    · rw [if_pos hb0]
      exact bot_le
    · rw [if_neg hb0, if_neg (by omega)]
      have hleaf : searchtree_leaf h k samples
          (splitter_count h k samples |a.getD i 0|) =
          splitter k samples (splitter_count h k samples |a.getD i 0|) := by
        unfold searchtree_leaf splitter
        exact build_searchtree_leaf h k samples _ hblt
      rw [hleaf]
      have hle := splitter_le_of_bucket_pos h k samples |a.getD i 0| hmono (by omega)
      exact_mod_cast hle
  · unfold searchtree_leaf_ext
    by_cases hbtop : 2 ^ h ≤ splitter_count h k samples |a.getD i 0| + 1
    · rw [if_neg (by omega : ¬ splitter_count h k samples |a.getD i 0| + 1 = 0),
        if_pos hbtop]
      refine lt_of_le_of_ne le_top ?_
      intro hcon
      have h2 : (((|a.getD i 0| : ℚ) : WithTop ℚ) : WithBot (WithTop ℚ)) =
          ((⊤ : WithTop ℚ) : WithBot (WithTop ℚ)) := by
        rw [hcon]; rfl
      rw [WithBot.coe_inj] at h2
      exact WithTop.coe_ne_top h2
    · push_neg at hbtop
      rw [if_neg (by omega : ¬ splitter_count h k samples |a.getD i 0| + 1 = 0),
        if_neg (by omega)]
      have hleaf : searchtree_leaf h k samples
          (splitter_count h k samples |a.getD i 0| + 1) =
          splitter k samples (splitter_count h k samples |a.getD i 0| + 1) := by
        unfold searchtree_leaf splitter
        exact build_searchtree_leaf h k samples _ hbtop
      rw [hleaf]
      have hlt := lt_splitter_succ_of_bucket h k samples |a.getD i 0| hmono hbtop
      exact_mod_cast hlt

theorem count_buckets_bucket_invariant_witness :
    searchtree_leaf_ext 1 1 [3, 7] ((count_buckets_oracles 1 1 [3, 7] [2]).getD 0 0) ≤
        (((|([2] : List ℚ).getD 0 0| : ℚ) : WithTop ℚ) : WithBot (WithTop ℚ)) ∧
      (((|([2] : List ℚ).getD 0 0| : ℚ) : WithTop ℚ) : WithBot (WithTop ℚ)) <
        searchtree_leaf_ext 1 1 [3, 7]
          ((count_buckets_oracles 1 1 [3, 7] [2]).getD 0 0 + 1) :=
  count_buckets_bucket_invariant 1 1 [3, 7] [2] (by decide)
    (by rfl) 0 (by decide)

/-! ## C1: counting, prefix sums and bucket location -/

theorem count_map_eq_countP (f : ℚ → ℕ) (b : ℕ) (a : List ℚ) :
    (a.map f).count b = a.countP fun v => decide (f v = b) := by
  rw [List.count_eq_countP, List.countP_map]
  apply List.countP_congr
  intro x _
  simp [Function.comp]

theorem countP_lt_succ (f : ℚ → ℕ) (i : ℕ) (l : List ℚ) :
    (l.countP fun q => decide (f q < i + 1)) =
      (l.countP fun q => decide (f q < i)) + l.countP fun q => decide (f q = i) := by
  induction l with
  | nil => rfl
  | cons x t ih =>
    simp only [List.countP_cons, ih, decide_eq_true_eq]
    split_ifs <;> omega

theorem bucket_prefix_sum_eq_countP (h k : ℕ) (samples a : List ℚ) (hk : 1 ≤ k)
    (hlen : samples.length = 2 ^ h * k) (i : ℕ) :
    bucket_prefix_sum h k samples a i =
      a.countP fun v => decide (splitter_count h k samples |v| < i) := by
  induction i with
  | zero =>
    unfold bucket_prefix_sum
    rw [Finset.sum_range_zero]
    symm
    rw [List.countP_eq_zero]
    intro v _
    simp
  | succ i ih =>
    unfold bucket_prefix_sum at ih ⊢
    rw [Finset.sum_range_succ, ih,
      countP_lt_succ (fun v => splitter_count h k samples |v|) i a]
    congr 1
    unfold bucket_counts
    rw [count_buckets_oracles_eq h k samples a hk hlen]
    exact count_map_eq_countP (fun v => splitter_count h k samples |v|) i a

theorem bucket_prefix_sum_total (h k : ℕ) (samples a : List ℚ) (hk : 1 ≤ k)
    (hlen : samples.length = 2 ^ h * k) :
    bucket_prefix_sum h k samples a (2 ^ h) = a.length := by
  rw [bucket_prefix_sum_eq_countP h k samples a hk hlen]
  rw [List.countP_eq_length]
  intro v _
  simp only [decide_eq_true_eq]
  exact splitter_count_lt h k samples |v|

theorem group_wide_search_spec (w : ℕ) (p : ℕ → Bool) (hex : ∃ i, i < w ∧ p i = true) :
    group_wide_search 0 w p < w ∧ p (group_wide_search 0 w p) = true ∧
      ∀ i, i < group_wide_search 0 w p → p i = false := by
  obtain ⟨i0, hi0w, hp0⟩ := hex
  have hgw : group_wide_search 0 w p = (List.range w).findIdx fun i => p (0 + i) := by
    unfold group_wide_search
    omega
  have hpeq : (fun i => p (0 + i)) = p := by
    funext i
    rw [Nat.zero_add]
  rw [hgw, hpeq]
  have hlt : (List.range w).findIdx p < (List.range w).length :=
    List.findIdx_lt_length_of_exists ⟨i0, List.mem_range.mpr hi0w, hp0⟩
  rw [List.length_range] at hlt
  refine ⟨hlt, ?_, ?_⟩
  · have hget := @List.findIdx_getElem _ p (List.range w) (by rwa [List.length_range])
    rwa [List.getElem_range] at hget
  · intro i hi
    have hg := List.not_of_lt_findIdx hi
    rwa [List.getElem_range] at hg

theorem find_bucket_spec (w : ℕ) (ps : ℕ → ℕ) (r : ℕ) (h0 : ps 0 = 0) (hw : 0 < w)
    (hr : r < ps w) :
    (find_bucket w ps r).idx < w ∧ ps ((find_bucket w ps r).idx) ≤ r ∧
      r < ps ((find_bucket w ps r).idx + 1) := by
  have hidx : (find_bucket w ps r).idx =
      group_wide_search 0 w fun i => decide (r < ps (i + 1)) := rfl
  have hex : ∃ i, i < w ∧ (fun i => decide (r < ps (i + 1))) i = true := by
    refine ⟨w - 1, by omega, ?_⟩
    simp only [decide_eq_true_eq]
    have he : w - 1 + 1 = w := by omega
    rw [he]
    exact hr
  obtain ⟨hlt, hpt, hbefore⟩ := group_wide_search_spec w _ hex
  rw [hidx]
  refine ⟨hlt, ?_, by simpa using hpt⟩
  rcases Nat.eq_zero_or_pos (group_wide_search 0 w fun i => decide (r < ps (i + 1)))
    with hz | hpos
  · rw [hz, h0]
    omega
  · have hb := hbefore _ (Nat.sub_lt hpos one_pos)
    simp only [decide_eq_false_iff_not, not_lt] at hb
    have he : group_wide_search 0 w (fun i => decide (r < ps (i + 1))) - 1 + 1 =
        group_wide_search 0 w fun i => decide (r < ps (i + 1)) := by
      omega
    rwa [he] at hb

theorem sorted_partition (f : ℚ → ℕ) (b : ℕ) :
    ∀ l : List ℚ, l.Sorted (· ≤ ·) →
      (∀ x ∈ l, ∀ y ∈ l, x ≤ y → f x ≤ f y) →
      l = (l.filter fun q => decide (f q < b)) ++ (l.filter fun q => decide (f q = b))
          ++ l.filter fun q => decide (b < f q) := by
  intro l
  induction l with
  | nil =>
    intro _ _
    rfl
  | cons x t ih =>
    intro hs hmono
    rw [List.sorted_cons] at hs
    obtain ⟨hxt, hst⟩ := hs
    have hmt : ∀ a ∈ t, ∀ y ∈ t, a ≤ y → f a ≤ f y := fun a ha y hy =>
      hmono a (by simp [ha]) y (by simp [hy])
    have iht := ih hst hmt
    rcases Nat.lt_trichotomy (f x) b with h1 | h1 | h1
    · simp only [List.filter_cons, if_pos (by simpa using h1 : decide (f x < b) = true),
        if_neg (by simp only [decide_eq_true_eq]; omega : ¬ decide (f x = b) = true),
        if_neg (by simp only [decide_eq_true_eq]; omega : ¬ decide (b < f x) = true),
        List.cons_append]
      exact congrArg (x :: ·) iht
    · have hF1 : (t.filter fun q => decide (f q < b)) = [] := by
        rw [List.filter_eq_nil_iff]
        intro y hy
        simp only [decide_eq_true_eq, not_lt]
        have := hmono x (by simp) y (by simp [hy]) (hxt y hy)
        omega
      simp only [List.filter_cons,
        if_neg (by simp only [decide_eq_true_eq]; omega : ¬ decide (f x < b) = true),
        if_pos (by simpa using h1 : decide (f x = b) = true),
        if_neg (by simp only [decide_eq_true_eq]; omega : ¬ decide (b < f x) = true),
        hF1, List.nil_append, List.cons_append]
      rw [hF1, List.nil_append] at iht
      exact congrArg (x :: ·) iht
    · have hF1 : (t.filter fun q => decide (f q < b)) = [] := by
        rw [List.filter_eq_nil_iff]
        intro y hy
        simp only [decide_eq_true_eq, not_lt]
        have := hmono x (by simp) y (by simp [hy]) (hxt y hy)
        omega
      have hF2 : (t.filter fun q => decide (f q = b)) = [] := by
        rw [List.filter_eq_nil_iff]
        intro y hy
        simp only [decide_eq_true_eq]
        have := hmono x (by simp) y (by simp [hy]) (hxt y hy)
        omega
      simp only [List.filter_cons,
        if_neg (by simp only [decide_eq_true_eq]; omega : ¬ decide (f x < b) = true),
        if_neg (by simp only [decide_eq_true_eq]; omega : ¬ decide (f x = b) = true),
        if_pos (by simpa using h1 : decide (b < f x) = true),
        hF1, hF2, List.nil_append, List.cons_append]
      rw [hF1, hF2, List.nil_append, List.nil_append] at iht
      exact congrArg (x :: ·) iht

theorem sorted_filter_eq_mergeSort_filter (p : ℚ → Bool) (L : List ℚ) :
    (L.mergeSort fun x y => decide (x ≤ y)).filter p =
      (L.filter p).mergeSort fun x y => decide (x ≤ y) := by
  refine List.eq_of_perm_of_sorted
    (((List.mergeSort_perm L _).filter p).trans
      ((List.mergeSort_perm (L.filter p) _).symm))
    ((mergeSort_sorted_le L).filter p) (mergeSort_sorted_le _)

theorem getD_append_mid (P Q R : List ℚ) (r : ℕ) (h1 : P.length ≤ r)
    (h2 : r - P.length < Q.length) :
    (P ++ Q ++ R).getD r 0 = Q.getD (r - P.length) 0 := by
  rw [List.getD_eq_getElem?_getD, List.getD_eq_getElem?_getD, List.append_assoc,
    List.getElem?_append_right h1, List.getElem?_append_left h2]

theorem filter_bucket_eq_filter (g : ℚ → ℕ) (b : ℕ) :
    ∀ a : List ℚ, filter_bucket a (a.map fun v => g |v|) b =
      (a.map fun v => |v|).filter fun q => decide (g q = b) := by
  intro a
  induction a with
  | nil => rfl
  | cons x t ih =>
    unfold filter_bucket at ih ⊢
    simp only [List.map_cons, List.zip_cons_cons, List.filterMap_cons, List.filter_cons]
    by_cases hb : g |x| = b
    · simp [hb, ih]
    · simp [hb, ih]

theorem pipeline_bucket_length_le (h k : ℕ) (a samples : List ℚ) (r : ℕ) :
    (pipeline_bucket h k a samples r).length ≤ a.length := by
  unfold pipeline_bucket filter_bucket
  refine le_trans (List.length_filterMap_le _ _) ?_
  rw [List.length_zip]
  exact inf_le_left

theorem basecase_select_eq (l : List ℚ) (rank : ℕ) (hsmall : l.length ≤ basecase_size)
    (hrank : rank < l.length) :
    basecase_select l rank =
      (((l.mergeSort fun x y => decide (x ≤ y)).getD rank 0 : ℚ) : WithTop ℚ) := by
  unfold basecase_select
  rw [List.take_of_length_le hsmall, min_eq_left hsmall]
  have hkey : ((l.map fun x : ℚ => (x : WithTop ℚ)) ++
        List.replicate (basecase_size - l.length) (⊤ : WithTop ℚ)).mergeSort
        (fun a b => decide (a ≤ b)) =
      ((l.mergeSort fun x y => decide (x ≤ y)).map fun x : ℚ => (x : WithTop ℚ)) ++
        List.replicate (basecase_size - l.length) (⊤ : WithTop ℚ) := by
    refine List.eq_of_perm_of_sorted
      ((List.mergeSort_perm _ _).trans
        (List.Perm.append (List.Perm.map _ (List.mergeSort_perm l _).symm)
          (List.Perm.refl _)))
      (mergeSort_sorted_le _) ?_
    unfold List.Sorted
    rw [List.pairwise_append]
    refine ⟨?_, ?_, ?_⟩
    · rw [List.pairwise_map]
      exact (mergeSort_sorted_le l).imp fun hab => by exact_mod_cast hab
    · exact List.pairwise_replicate.mpr (Or.inr le_rfl)
    · intro x _ y hy
      rw [List.eq_of_mem_replicate hy]
      exact le_top
  simp only [hkey]
  have hmlt : rank < ((l.mergeSort fun x y => decide (x ≤ y)).map
      fun x : ℚ => (x : WithTop ℚ)).length := by
    rw [List.length_map, List.length_mergeSort]
    exact hrank
  rw [List.getD_eq_getElem?_getD, List.getElem?_append_left hmlt,
    List.getElem?_eq_getElem hmlt]
  simp only [Option.getD_some, List.getElem_map]
  rw [List.getD_eq_getElem _ _ (by rw [List.length_mergeSort]; exact hrank)]

/-- C1: for every input array and every rank below its length, the
sample-select pipeline - classification against the sample search tree,
per-bucket counts and their prefix sum, find_bucket locating the bucket
holding the rank and rebasing the rank by the bucket's base offset,
filter_bucket compaction and the sort-based base case with plus-infinity
padding - returns exactly the rank-th smallest element of the multiset of
magnitudes of the input, provided the sample array fills the tree and the
selected bucket fits the base case buffer. -/
theorem sampleselect_pipeline_correct (h k : ℕ) (a samples : List ℚ) (r : ℕ)
    (hk : 1 ≤ k) (hlen : samples.length = 2 ^ h * k) (hr : r < a.length)
    (hsmall : (pipeline_bucket h k a samples r).length ≤ basecase_size) :
    sampleselect_pipeline h k a samples r =
      (((sorted_abs a).getD r 0 : ℚ) : WithTop ℚ) := by
  have h0 : bucket_prefix_sum h k samples a 0 = 0 := Finset.sum_range_zero _
  have htot : bucket_prefix_sum h k samples a (2 ^ h) = a.length :=
    bucket_prefix_sum_total h k samples a hk hlen
  obtain ⟨hbw, hbl, hbr⟩ := find_bucket_spec (2 ^ h) (bucket_prefix_sum h k samples a) r
    h0 (Nat.two_pow_pos h) (by rw [htot]; exact hr)
  set bidx := (find_bucket (2 ^ h) (bucket_prefix_sum h k samples a) r).idx with hbidx
  have hperm : (sorted_abs a).Perm (a.map fun v => |v|) := by
    unfold sorted_abs
    exact List.mergeSort_perm _ _
  have hsorted : (sorted_abs a).Sorted (· ≤ ·) := by
    unfold sorted_abs
    exact mergeSort_sorted_le _
  have hpart := sorted_partition (splitter_count h k samples) bidx (sorted_abs a)
    hsorted (fun x _ y _ hxy => splitter_count_mono h k samples x y hxy)
  have hF1len : ((sorted_abs a).filter fun q =>
      decide (splitter_count h k samples q < bidx)).length =
      bucket_prefix_sum h k samples a bidx := by
    rw [← List.countP_eq_length_filter, List.Perm.countP_eq _ hperm, List.countP_map,
      bucket_prefix_sum_eq_countP h k samples a hk hlen bidx]
    apply List.countP_congr
    intro x _
    simp [Function.comp]
  have hcnt2 : ((sorted_abs a).filter fun q =>
      decide (splitter_count h k samples q = bidx)).length =
      a.countP fun v => decide (splitter_count h k samples |v| = bidx) := by
    rw [← List.countP_eq_length_filter, List.Perm.countP_eq _ hperm, List.countP_map]
    apply List.countP_congr
    intro x _
    simp [Function.comp]
  have hsum : bucket_prefix_sum h k samples a (bidx + 1) =
      bucket_prefix_sum h k samples a bidx +
        a.countP fun v => decide (splitter_count h k samples |v| = bidx) := by
    rw [bucket_prefix_sum_eq_countP h k samples a hk hlen (bidx + 1),
      bucket_prefix_sum_eq_countP h k samples a hk hlen bidx,
      countP_lt_succ (fun v => splitter_count h k samples |v|) bidx a]
  have hgetD := getD_append_mid
    ((sorted_abs a).filter fun q => decide (splitter_count h k samples q < bidx))
    ((sorted_abs a).filter fun q => decide (splitter_count h k samples q = bidx))
    ((sorted_abs a).filter fun q => decide (bidx < splitter_count h k samples q))
    r (by rw [hF1len]; exact hbl) (by rw [hF1len, hcnt2]; omega)
  have hEq : (sorted_abs a).getD r 0 = ((sorted_abs a).filter fun q =>
      decide (splitter_count h k samples q = bidx)).getD
      (r - bucket_prefix_sum h k samples a bidx) 0 := by
    conv_lhs => rw [hpart]
    rw [hgetD, hF1len]
  have hpipe : pipeline_bucket h k a samples r = (a.map fun v => |v|).filter fun q =>
      decide (splitter_count h k samples q = bidx) := by
    unfold pipeline_bucket
    rw [count_buckets_oracles_eq h k samples a hk hlen]
    exact filter_bucket_eq_filter (splitter_count h k samples) bidx a
  have hQ : ((sorted_abs a).filter fun q =>
      decide (splitter_count h k samples q = bidx)) =
      (pipeline_bucket h k a samples r).mergeSort fun x y => decide (x ≤ y) := by
    rw [hpipe]
    exact sorted_filter_eq_mergeSort_filter _ _
  have hplen : (pipeline_bucket h k a samples r).length =
      a.countP fun v => decide (splitter_count h k samples |v| = bidx) := by
    rw [hpipe, ← List.countP_eq_length_filter, List.countP_map]
    apply List.countP_congr
    intro x _
    simp [Function.comp]
  have hrank : r - bucket_prefix_sum h k samples a bidx <
      (pipeline_bucket h k a samples r).length := by
    rw [hplen]
    omega
  unfold sampleselect_pipeline
  have hbase : (find_bucket (2 ^ h) (bucket_prefix_sum h k samples a) r).base =
      bucket_prefix_sum h k samples a bidx := rfl
  rw [hbase, basecase_select_eq _ _ hsmall hrank, ← hQ, ← hEq]

theorem sampleselect_pipeline_correct_witness :
    sampleselect_pipeline 1 1 [5, 1, 4, 2, 3] [3, 7] 2 =
      (((sorted_abs [5, 1, 4, 2, 3]).getD 2 0 : ℚ) : WithTop ℚ) :=
  sampleselect_pipeline_correct 1 1 [5, 1, 4, 2, 3] [3, 7] 2 (by decide) (by rfl)
    (by decide)
    (le_trans (pipeline_bucket_length_le 1 1 [5, 1, 4, 2, 3] [3, 7] 2) (by decide))
